import Mathlib

/-!
# Verification of the json-ai-translation diffing and reconciliation engine

This development shallowly embeds the core of the `json-ai-translation`
repository (`src/util.ts` and `src/runner.ts`) in Lean and proves, or refutes,
the specified properties of:

* the flatten/unflatten codec (`flattenJSON`, `unflattenJSON`, key escaping
  with the private sentinel `~|~`),
* the change-set extractor (`getGitDiffJSON`),
* the cross-locale key-presence analyzer (`getMissingKeys`,
  `getCommonStrings`, `getCommonMissingKeys`),
* the batch translation orchestrator and reconciliation writer
  (`translateJSON`, `updateLocaleFile`, `updateAllLocaleFiles`).

Modelling conventions:

* A JavaScript string is modelled as a `List Char` (named `Key`); JavaScript's
  `split`/`join` are modelled by explicit structural functions on `List Char`.
* A JavaScript object is modelled as an insertion-ordered association list;
  property assignment (`o[k] = v`) keeps the position of an existing key and
  appends a fresh key, exactly as JS insertion order does.  (JS additionally
  iterates integer-like keys first; none of the verified properties depend on
  that reordering and it is not modelled.)
* JSON leaf values are modelled by `str`/`num`/`bool`/`null` constructors;
  JS numbers are modelled as integers (no claim here depends on float
  semantics).
* Exceptional control flow (a strict-mode TypeError, `process.exit(1)`) is
  modelled with `Option`/`Except`.
-/

namespace JT

/-- A JavaScript string, as a list of characters. -/
abbrev Key := List Char

/-- `chars s` is the character list of a Lean string literal, used to write
concrete JS strings. -/
def chars (s : String) : Key := s.data

/-! ## JSON values (the trees handled by `flattenJSON` / `unflattenJSON`) -/

/-- A JSON value: the values produced by `JSON.parse` and handled by
`flattenJSON` / `unflattenJSON` in `src/util.ts`.  Objects are
insertion-ordered association lists. -/
inductive JSON where
  | str (s : Key)
  | num (n : Int)
  | bool (b : Bool)
  | null
  | arr (elems : List JSON)
  | obj (entries : List (Key × JSON))
deriving Repr

/-- `typeof v === "object" && v !== null` — the recursion test of
`flattenJSON`. -/
def JSON.isContainer : JSON → Bool
  | .obj _ => true
  | .arr _ => true
  | _ => false

/-- `Array.isArray` -/
def JSON.isArr : JSON → Bool
  | .arr _ => true
  | _ => false

/-- JavaScript truthiness (`ToBoolean`) of a JSON value. -/
def truthy : JSON → Bool
  | .str s => !s.isEmpty
  | .num n => n != 0
  | .bool b => b
  | .null => false
  | .arr _ => true
  | .obj _ => true

/-! ### Decidable equality for `JSON`

`deriving DecidableEq` is not available for this nested inductive, so the
instance is built from a Boolean structural equality. -/

mutual

def jeq : JSON → JSON → Bool
  | .str a, .str b => a == b
  | .num a, .num b => a == b
  | .bool a, .bool b => a == b
  | .null, .null => true
  | .arr a, .arr b => jeqList a b
  | .obj a, .obj b => jeqEntries a b
  | _, _ => false

def jeqList : List JSON → List JSON → Bool
  | [], [] => true
  | a :: as, b :: bs => jeq a b && jeqList as bs
  | _, _ => false

def jeqEntries : List (Key × JSON) → List (Key × JSON) → Bool
  | [], [] => true
  | (k, v) :: as, (k2, v2) :: bs => k == k2 && jeq v v2 && jeqEntries as bs
  | _, _ => false

end

mutual

theorem jeq_refl : ∀ a : JSON, jeq a a = true
  | .str _ => by simp [jeq]
  | .num _ => by simp [jeq]
  | .bool _ => by simp [jeq]
  | .null => by simp [jeq]
  | .arr a => by simp [jeq]; exact jeqList_refl a
  | .obj a => by simp [jeq]; exact jeqEntries_refl a

theorem jeqList_refl : ∀ a : List JSON, jeqList a a = true
  | [] => by simp [jeqList]
  | a :: as => by simp [jeqList]; exact ⟨jeq_refl a, jeqList_refl as⟩

theorem jeqEntries_refl : ∀ a : List (Key × JSON), jeqEntries a a = true
  | [] => by simp [jeqEntries]
  | (_, v) :: as => by simp [jeqEntries]; exact ⟨jeq_refl v, jeqEntries_refl as⟩

end

mutual

theorem jeq_sound : ∀ a b : JSON, jeq a b = true → a = b
  | .str _, .str _ => fun h => by simp [jeq] at h; simp [h]
  | .num _, .num _ => fun h => by simp [jeq] at h; simp [h]
  | .bool _, .bool _ => fun h => by simp [jeq] at h; simp [h]
  | .null, .null => fun _ => rfl
  | .arr a, .arr b => fun h => by
      simp only [jeq] at h
      simp [jeqList_sound a b h]
  | .obj a, .obj b => fun h => by
      simp only [jeq] at h
      simp [jeqEntries_sound a b h]
  | .str _, .num _ | .str _, .bool _ | .str _, .null | .str _, .arr _ | .str _, .obj _
  | .num _, .str _ | .num _, .bool _ | .num _, .null | .num _, .arr _ | .num _, .obj _
  | .bool _, .str _ | .bool _, .num _ | .bool _, .null | .bool _, .arr _ | .bool _, .obj _
  | .null, .str _ | .null, .num _ | .null, .bool _ | .null, .arr _ | .null, .obj _
  | .arr _, .str _ | .arr _, .num _ | .arr _, .bool _ | .arr _, .null | .arr _, .obj _
  | .obj _, .str _ | .obj _, .num _ | .obj _, .bool _ | .obj _, .null | .obj _, .arr _ =>
      fun h => by simp [jeq] at h

theorem jeqList_sound : ∀ a b : List JSON, jeqList a b = true → a = b
  | [], [] => fun _ => rfl
  | a :: as, b :: bs => fun h => by
      simp only [jeqList, Bool.and_eq_true] at h
      simp [jeq_sound a b h.1, jeqList_sound as bs h.2]
  | [], _ :: _ | _ :: _, [] => fun h => by simp [jeqList] at h

theorem jeqEntries_sound : ∀ a b : List (Key × JSON), jeqEntries a b = true → a = b
  | [], [] => fun _ => rfl
  | (k, v) :: as, (k2, v2) :: bs => fun h => by
      simp only [jeqEntries, Bool.and_eq_true, beq_iff_eq] at h
      simp [h.1.1, jeq_sound v v2 h.1.2, jeqEntries_sound as bs h.2]
  | [], _ :: _ | _ :: _, [] => fun h => by simp [jeqEntries] at h

end

instance : DecidableEq JSON := fun a b =>
  if h : jeq a b = true then isTrue (jeq_sound a b h)
  else isFalse (fun he => h (he ▸ jeq_refl a))

/-! ## JavaScript object primitives -/

/-- Property read `o[k]`, as `Option` (`none` = absent/`undefined`). -/
def jsGet {α : Type} (m : List (Key × α)) (k : Key) : Option α :=
  (m.find? (fun p => p.1 == k)).map Prod.snd

/-- Property read with a default for the absent case. -/
def jsGetD {α : Type} (m : List (Key × α)) (k : Key) (d : α) : α :=
  (jsGet m k).getD d

/-- Property assignment `o[k] = v`: overwrites in place if `k` is present
(keeping its position, as JS does), otherwise appends. -/
def jsSet {α : Type} (m : List (Key × α)) (k : Key) (v : α) : List (Key × α) :=
  if m.any (fun p => p.1 == k) then
    m.map (fun p => if p.1 == k then (k, v) else p)
  else m ++ [(k, v)]

/-- Property deletion `delete o[k]`. -/
def jsDelete {α : Type} (m : List (Key × α)) (k : Key) : List (Key × α) :=
  m.filter (fun p => !(p.1 == k))

/-- `Object.keys` -/
def jsKeys {α : Type} (m : List (Key × α)) : List Key := m.map Prod.fst

/-! ## String splitting and joining (JS `String.prototype.split` / `Array.prototype.join`) -/

/-- The private sentinel `PERIOD_ESC = "~|~"` of `src/util.ts`. -/
def escSep : List Char := ['~', '|', '~']

/-- `s.split(".")` -/
def splitDot : Key → List Key
  | [] => [[]]
  | '.' :: rest => [] :: splitDot rest
  | c :: rest =>
    match splitDot rest with
    | [] => [[c]]
    | p :: ps => (c :: p) :: ps

/-- `s.split("~|~")`: scan left to right for the leftmost occurrence of the
sentinel and continue after it, as JS `split` does. -/
def splitEsc : Key → List Key
  | [] => [[]]
  | '~' :: '|' :: '~' :: rest => [] :: splitEsc rest
  | c :: rest =>
    match splitEsc rest with
    | [] => [[c]]
    | p :: ps => (c :: p) :: ps

/-- `pieces.join(sep)` -/
def joinSep (sep : Key) : List Key → Key
  | [] => []
  | [p] => p
  | p :: ps => p ++ sep ++ joinSep sep ps

/-- `key.split(".").join(PERIOD_ESC)` — the key escaping inside `flattenJSON`. -/
def escapeKey (k : Key) : Key := joinSep escSep (splitDot k)

/-- `key.split(PERIOD_ESC).join(".")` — the unescaping inside `unflattenJSON`. -/
def unescapeKey (k : Key) : Key := joinSep ['.'] (splitEsc k)

/-- `parentKey ? parentKey + "." + escapedKey : escapedKey` -/
def mkKey (parentKey escapedKey : Key) : Key :=
  if parentKey.isEmpty then escapedKey else parentKey ++ '.' :: escapedKey

/-! ## `flattenJSON` (src/util.ts lines 75–94) -/

mutual

/-- One call of `flattenJSON(jsonObject, parentKey, result)`.  The
`for (const key in jsonObject)` loop iterates the own enumerable properties of
an object in insertion order, and the indices `0, 1, …` of an array.  A
primitive at this position contributes nothing.  (The corner case of a bare
primitive STRING at the top level, whose boxed form has index properties, is
excluded by the top-level theorems, which require a container argument —
`flattenJSON` is only ever applied to `JSON.parse` results of whole files.) -/
def flattenAux : JSON → Key → List (Key × JSON) → List (Key × JSON)
  | .obj entries, parentKey, result => flattenObj entries parentKey result
  | .arr elems, parentKey, result => flattenArr elems 0 parentKey result
  | _, _, result => result

def flattenObj : List (Key × JSON) → Key → List (Key × JSON) → List (Key × JSON)
  | [], _, result => result
  | (key, v) :: rest, parentKey, result =>
    flattenObj rest parentKey
      (if v.isContainer then flattenAux v (mkKey parentKey (escapeKey key)) result
       else jsSet result (mkKey parentKey (escapeKey key)) v)

def flattenArr : List JSON → Nat → Key → List (Key × JSON) → List (Key × JSON)
  | [], _, _, result => result
  | v :: rest, i, parentKey, result =>
    flattenArr rest (i + 1) parentKey
      (if v.isContainer then flattenAux v (mkKey parentKey (escapeKey (Nat.repr i).data)) result
       else jsSet result (mkKey parentKey (escapeKey (Nat.repr i).data)) v)

end

/-- `flattenJSON(jsonObject)` with the default arguments. -/
def flattenJSON (jsonObject : JSON) : List (Key × JSON) := flattenAux jsonObject [] []

/-! ## `unflattenJSON` (src/util.ts lines 238–267) -/

/-- Walk/create nested objects along `keys` and assign `v` at the last
segment; this is the `keys.forEach` loop of `unflattenJSON` for one flat key.

* At an intermediate segment whose current value is falsy or absent the code
  installs a fresh `{}` and descends into it.
* At an intermediate segment holding a truthy non-object the JS code would
  descend into a primitive and the final property assignment would throw a
  strict-mode TypeError; this is modelled as `none`.  (A truthy primitive can
  never be hit when unflattening a `flattenJSON` result; an intermediate JS
  array with added named properties is not representable in `JSON` and cannot
  arise from `unflattenJSON`'s own `{}` nodes either.) -/
def insertPath : List (Key × JSON) → List Key → JSON → Option (List (Key × JSON))
  | m, [], _ => some m
  | m, [k], v => some (jsSet m k v)
  | m, k :: k2 :: rest, v =>
    match jsGet m k with
    | some w =>
      if truthy w then
        match w with
        | .obj m2 => (insertPath m2 (k2 :: rest) v).map (fun m3 => jsSet m k (.obj m3))
        | _ => none
      else (insertPath [] (k2 :: rest) v).map (fun m3 => jsSet m k (.obj m3))
    | none => (insertPath [] (k2 :: rest) v).map (fun m3 => jsSet m k (.obj m3))

/-- `flatKey.split(".")`, each segment unescaped with
`key.split(PERIOD_ESC).join(".")` (the code unescapes at use; doing it upfront
is equivalent since each segment is unescaped exactly once). -/
def splitKeySegs (flatKey : Key) : List Key := (splitDot flatKey).map unescapeKey

/-- `unflattenJSON(flattened)`: fold `insertPath` over the flat entries in
order.  `none` models the strict-mode TypeError described at `insertPath`. -/
def unflattenJSON (flattened : List (Key × JSON)) : Option JSON :=
  (flattened.foldl (fun acc kv => acc.bind (fun m => insertPath m (splitKeySegs kv.1) kv.2))
    (some [])).map JSON.obj

/-! ## Normalisation of trees (for the round-trip statements)

`arraysToObjects` is the documented lossiness: every array becomes a plain
object keyed by the stringified indices; leaves are untouched.
`specStringify` is, by contrast, the transformation described by the spec's
words ("all leaf values are stringified"); it is used to compare the spec
against the code. -/

mutual

def arraysToObjects : JSON → JSON
  | .obj es => .obj (a2oEntries es)
  | .arr es => .obj (a2oElems 0 es)
  | v => v

def a2oEntries : List (Key × JSON) → List (Key × JSON)
  | [] => []
  | (k, v) :: rest => (k, arraysToObjects v) :: a2oEntries rest

def a2oElems : Nat → List JSON → List (Key × JSON)
  | _, [] => []
  | i, v :: rest => ((Nat.repr i).data, arraysToObjects v) :: a2oElems (i + 1) rest

end

/-- `String(v)` for a JSON leaf. -/
def jsToString : JSON → Key
  | .str s => s
  | .num n => (Int.repr n).data
  | .bool b => if b then chars "true" else chars "false"
  | .null => chars "null"
  | .arr _ => []
  | .obj _ => []

mutual

/-- Modelled from the spec: "structurally equal to `t` except that every array
in `t` becomes a plain object whose keys are the stringified numeric indices,
and all leaf values are stringified."  This is the spec's description of the
round-trip image, used to test the spec against the code. -/
def specStringify : JSON → JSON
  | .obj es => .obj (specStringifyEntries es)
  | .arr es => .obj (specStringifyElems 0 es)
  | v => .str (jsToString v)

def specStringifyEntries : List (Key × JSON) → List (Key × JSON)
  | [] => []
  | (k, v) :: rest => (k, specStringify v) :: specStringifyEntries rest

def specStringifyElems : Nat → List JSON → List (Key × JSON)
  | _, [] => []
  | i, v :: rest => ((Nat.repr i).data, specStringify v) :: specStringifyElems (i + 1) rest

end

/-! ## Well-formedness of input trees

`wfJSON` collects the side conditions under which the round-trip is exact:
object keys are nonempty, duplicate-free and contain no `'~'` (so the
`~|~`-escaping is unambiguous), and no empty object/array occurs (flattening
erases empty containers). -/

def keyOk (k : Key) : Bool := !k.isEmpty && !k.contains '~'

def nodupKeys : List Key → Bool
  | [] => true
  | k :: rest => !rest.contains k && nodupKeys rest

mutual

def wfJSON : JSON → Bool
  | .obj es => !es.isEmpty && nodupKeys (es.map Prod.fst) && wfEntries es
  | .arr es => !es.isEmpty && wfElems es
  | _ => true

def wfEntries : List (Key × JSON) → Bool
  | [] => true
  | (k, v) :: rest => keyOk k && wfJSON v && wfEntries rest

def wfElems : List JSON → Bool
  | [] => true
  | v :: rest => wfJSON v && wfElems rest

end

/-! ## `JSON.stringify` and the value comparison of `getGitDiffJSON`

`getGitDiffJSON` compares two values with `JSON.stringify` equality when both
are arrays, and with `===` otherwise.  `jsonStringify` models compact
`JSON.stringify`; its string escaping covers quotes and backslashes (the
control-character escapes of real `JSON.stringify` are omitted — the encoding
stays injective, which is all the equality test uses). -/

def escapeJSONChar (c : Char) : List Char :=
  if c = '"' ∨ c = '\\' then ['\\', c] else [c]

def quoteString (s : Key) : Key := '"' :: (s.map escapeJSONChar).flatten ++ ['"']

mutual

def jsonStringify : JSON → Key
  | .str s => quoteString s
  | .num n => (Int.repr n).data
  | .bool b => if b then chars "true" else chars "false"
  | .null => chars "null"
  | .arr es => '[' :: stringifyElems es ++ [']']
  | .obj es => '\x7b' :: stringifyEntries es ++ ['\x7d']

def stringifyElems : List JSON → Key
  | [] => []
  | [v] => jsonStringify v
  | v :: v2 :: rest => jsonStringify v ++ ',' :: stringifyElems (v2 :: rest)

def stringifyEntries : List (Key × JSON) → Key
  | [] => []
  | [(k, v)] => quoteString k ++ ':' :: jsonStringify v
  | (k, v) :: kv2 :: rest =>
    quoteString k ++ ':' :: jsonStringify v ++ ',' :: stringifyEntries (kv2 :: rest)

end

/-- JavaScript `===` on the values found in flat mappings.  On primitives it
is structural; two arrays or objects compare by reference and the two operands
here always come from distinct `JSON.parse` calls, hence are never the same
reference. -/
def jsStrictEq : JSON → JSON → Bool
  | .str a, .str b => a == b
  | .num a, .num b => a == b
  | .bool a, .bool b => a == b
  | .null, .null => true
  | _, _ => false

/-- The `areEqual` computation of `getGitDiffJSON` (src/util.ts lines 178–185):
`JSON.stringify` equality when both values are arrays, `===` otherwise. -/
def jsAreEqual (prevVal curVal : JSON) : Bool :=
  if prevVal.isArr && curVal.isArr then jsonStringify prevVal == jsonStringify curVal
  else jsStrictEq prevVal curVal

/-! ## `getGitDiffJSON` (src/util.ts lines 134–210) -/

structure GitDiff where
  replaced : List Key
  deleted : List Key
  added : List Key
deriving DecidableEq, Repr

/-- The body of the first `for … in` loop of `getGitDiffJSON` (over the
previous snapshot): push to `replaced` when the values differ, to `deleted`
when the key is gone from the current file. -/
def diffStep1 (current : List (Key × JSON)) (acc : List Key × List Key)
    (kv : Key × JSON) : List Key × List Key :=
  match jsGet current kv.1 with
  | some curVal => if jsAreEqual kv.2 curVal then acc else (acc.1 ++ [kv.1], acc.2)
  | none => (acc.1, acc.2 ++ [kv.1])

/-- The body of the second `for … in` loop of `getGitDiffJSON` (over the
current file): with the force flag everything goes to `replaced`; otherwise
keys absent from the previous snapshot go to `added`. -/
def diffStep2 (forceTranslateAll : Bool) (prev : List (Key × JSON))
    (acc : List Key × List Key) (kv : Key × JSON) : List Key × List Key :=
  if forceTranslateAll then (acc.1 ++ [kv.1], acc.2)
  else if (jsGet prev kv.1).isSome then acc
  else (acc.1, acc.2 ++ [kv.1])

/-- `getGitDiffJSON(filePath, forceTranslateAll)`, modelled at the flat-map
boundary:

* `current` is the flattened current file contents;
* `history` is the outcome of `git show HEAD:filePath` followed by
  parse-and-flatten — `none` models the `catch` branch (no repository, or
  file absent from history), in which the code proceeds with `"{}"`, i.e. the
  empty flat map; when `forceTranslateAll` is set the git command is not run
  at all and the previous snapshot is likewise `"{}"`.

The two `for … in` loops are modelled by the two folds, in iteration order. -/
def getGitDiffJSON (current : List (Key × JSON)) (history : Option (List (Key × JSON)))
    (forceTranslateAll : Bool) : GitDiff :=
  let flattenedPreviousJson : List (Key × JSON) :=
    if forceTranslateAll then [] else history.getD []
  let step1 : List Key × List Key :=
    flattenedPreviousJson.foldl (diffStep1 current) ([], [])
  let step2 : List Key × List Key :=
    current.foldl (diffStep2 forceTranslateAll flattenedPreviousJson) (step1.1, [])
  { replaced := step2.1, deleted := step1.2, added := step2.2 }

/-- The git-sourced branch of `flattenJSONFile` (src/util.ts lines 96–131):
a failing `git show` is caught and replaced by `"{}"`, so the result is the
flat map of the recovered tree, never an error. -/
def flattenJSONFileGit (gitContent : Option JSON) : List (Key × JSON) :=
  flattenJSON (gitContent.getD (JSON.obj []))

/-! ## Runner models (src/runner.ts)

`LocaleInfo` is `{ locale, file }` with `file` a map from resource-file name
to that file's flat mapping. -/

structure LocaleInfo where
  locale : Key
  file : List (Key × List (Key × JSON))
deriving DecidableEq, Repr

/-- A call to `fs.writeFileSync` for one locale file.  `content` records the
reordered flat mapping being written; on disk it is serialized as
`stringifyWithNewlines(unflattenJSON(content))`, whose key set and key order
are those of `content`. -/
structure Write where
  locale : Key
  fileName : Key
  content : List (Key × JSON)
deriving DecidableEq, Repr

/-- The translation backend as seen by `updateLocaleFile`: target locale
codes and the filtered key/value payload give, per returned locale, a flat
record of translated key/value pairs (the parsed shape of the reply). -/
def TranslateFn : Type :=
  List Key → List (Key × JSON) → List (Key × List (Key × JSON))

/-- Update the first element satisfying `p` (JS `Array.prototype.find`
followed by in-place mutation of the found element). -/
def updateFirst (p : LocaleInfo → Bool) (f : LocaleInfo → LocaleInfo) :
    List LocaleInfo → List LocaleInfo
  | [] => []
  | li :: rest => if p li then f li :: rest else li :: updateFirst p f rest

/-- `Object.keys(translatedContent).forEach(key => fileRec[key] = …)` — merge
one locale's translated chunk into that locale's flat mapping. -/
def applyTranslated (fileRec : List (Key × JSON)) (translatedContent : List (Key × JSON)) :
    List (Key × JSON) :=
  translatedContent.foldl (fun fr kv => jsSet fr kv.1 kv.2) fileRec

/-- The reordering pass of `updateLocaleFile` (src/runner.ts lines 166–175):
iterate the authoritative file's keys in order and copy the locale's value
when it is not `undefined`. -/
def reorderStep (translatedLocaleFileInfo : List (Key × JSON))
    (acc : List (Key × JSON)) (kv : Key × JSON) : List (Key × JSON) :=
  match jsGet translatedLocaleFileInfo kv.1 with
  | some v => jsSet acc kv.1 v
  | none => acc

def reorderLocaleFile (mainFileContents : List (Key × JSON))
    (translatedLocaleFileInfo : List (Key × JSON)) : List (Key × JSON) :=
  mainFileContents.foldl (reorderStep translatedLocaleFileInfo) []

/-- The parsed shape of a backend reply: locale code to flat record. -/
abbrev TransResult : Type := List (Key × List (Key × JSON))

/-- The merge loop of `updateLocaleFile` applied to one parsed reply
(src/runner.ts lines 147–160): for every returned locale present in the
working set, copy every returned key/value into that locale's flat mapping
for the current resource file. -/
def applyTransResult (result : TransResult) (fileName : Key) (localesInfo : List LocaleInfo) :
    List LocaleInfo :=
  result.foldl (fun infos pair =>
    updateFirst (fun li => li.locale == pair.1)
      (fun li =>
        let nf := jsSet li.file fileName (applyTranslated (jsGetD li.file fileName []) pair.2)
        { li with file := nf }) infos) localesInfo

/-- `filteredFileContents`: the subset of the main file restricted to the
chunk's keys (src/runner.ts lines 122–127). -/
def filterPayload (mainFileContents : List (Key × JSON)) (keys : List Key) :
    List (Key × JSON) :=
  keys.foldl (fun acc k =>
    match jsGet mainFileContents k with
    | some v => jsSet acc k v
    | none => acc) []

/-- `updateLocaleFile(fileName, mainLocaleInfo, keys, localesInfo)`
(src/runner.ts lines 111–186).  Returns the updated `localesInfo` and the
writes performed.  In JS, `mainLocaleInfo` aliases the main entry of
`localesInfo`; callers of this model pass the current main entry explicitly.
When `keys` is nonempty the payload is sent to the backend and each returned
locale's record is merged in; then every non-main locale's file is reordered
against the main file's keys and written. -/
def updateLocaleFile (translationFn : TranslateFn) (mainLocale : Key) (fileName : Key)
    (mainLocaleInfo : LocaleInfo) (keys : List Key) (localesInfo : List LocaleInfo) :
    List LocaleInfo × List Write :=
  let localeCodes := (localesInfo.map LocaleInfo.locale).filter (fun c => !(c == mainLocale))
  let mainFileContents := jsGetD mainLocaleInfo.file fileName []
  let localesInfo1 :=
    if keys.length > 0 then
      applyTransResult
        (translationFn localeCodes (filterPayload mainFileContents keys))
        fileName localesInfo
    else localesInfo
  let writes := (localesInfo1.filter (fun li => !(li.locale == mainLocale))).map (fun li =>
    { locale := li.locale, fileName := fileName,
      content := reorderLocaleFile mainFileContents (jsGetD li.file fileName []) })
  (localesInfo1, writes)

/-- Loop body of `chunkArray`: `fuel` bounds the number of iterations.  With
`fuel = arr.length` and `bucketSize ≥ 1` it never runs out, since every
iteration drops at least one element. -/
def chunkArrayGo {α : Type} : Nat → List α → Nat → List (List α)
  | 0, _, _ => []
  | _, [], _ => []
  | fuel + 1, a :: arr, bucketSize =>
    (a :: arr).take bucketSize :: chunkArrayGo fuel ((a :: arr).drop bucketSize) bucketSize

/-- `chunkArray` (src/util.ts lines 305–313): slice `arr` into buckets of
`bucketSize`.  (The JS loop does not terminate for `bucketSize = 0`; it is
only ever called with the positive constant `BUCKET_SIZE`.) -/
def chunkArray {α : Type} (arr : List α) (bucketSize : Nat) : List (List α) :=
  if bucketSize = 0 then [] else chunkArrayGo arr.length arr bucketSize

/-- How many keys to process in one go (src/runner.ts line 19). -/
def BUCKET_SIZE : Nat := 25

/-- `totalKeysToUpdate` of `updateAllLocaleFiles` (src/runner.ts lines 63–66). -/
def totalKeys (fileNames : List Key) (keysForFileName : List (Key × List Key)) : Nat :=
  fileNames.foldl (fun n fileName => n + (jsGetD keysForFileName fileName []).length) 0

/-- The deletion pass of `updateAllLocaleFiles` (src/runner.ts lines 79–85):
`delete localeInfo.file[fileName][key]` for every locale (the main one
included) and every key slated for deletion. -/
def applyDeletions (infos : List LocaleInfo) (fileName : Key) (deletedKeys : List Key) :
    List LocaleInfo :=
  infos.map (fun li =>
    let nf := jsSet li.file fileName
      (deletedKeys.foldl (fun fr k2 => jsDelete fr k2) (jsGetD li.file fileName []))
    { li with file := nf })

/-- One chunk iteration of `updateAllLocaleFiles` (src/runner.ts lines
89–105).  Because `mainLocaleInfo` aliases the main entry of `localesInfo` in
JS, the chunk call receives the current main entry (falling back to the
passed-in record when no main entry exists). -/
def chunkStep (translationFn : TranslateFn) (mainLocale : Key)
    (mainLocaleInfo : LocaleInfo) (fileName : Key)
    (st2 : List LocaleInfo × List Write) (chunk : List Key) :
    List LocaleInfo × List Write :=
  let mainNow := (st2.1.find? (fun li => li.locale == mainLocale)).getD mainLocaleInfo
  let r := updateLocaleFile translationFn mainLocale fileName mainNow chunk st2.1
  (r.1, st2.2 ++ r.2)

/-- One file iteration of `updateAllLocaleFiles` (src/runner.ts lines
71–107): skip files without a `keysForFileName` entry (an empty key list is
truthy in JS and passes the `if (keys)` test), apply pending deletions, then
process each `BUCKET_SIZE`-chunk of the key list. -/
def updateFilesStep (translationFn : TranslateFn) (mainLocale : Key)
    (mainLocaleInfo : LocaleInfo) (keysForFileName : List (Key × List Key))
    (deletedFileKeys : List (Key × List Key))
    (st : List LocaleInfo × List Write) (fileName : Key) :
    List LocaleInfo × List Write :=
  match jsGet keysForFileName fileName with
  | none => st
  | some keys =>
    let deletedKeys := jsGetD deletedFileKeys fileName []
    let st1 : List LocaleInfo × List Write :=
      if deletedKeys.length > 0 then (applyDeletions st.1 fileName deletedKeys, st.2)
      else st
    (chunkArray keys BUCKET_SIZE).foldl
      (chunkStep translationFn mainLocale mainLocaleInfo fileName) st1

/-- `updateAllLocaleFiles(mainLocaleInfo, keysForFileName, localesInfo,
deletedFileKeys, logName)` (src/runner.ts lines 54–109).

The body runs only when the total number of keys to update over all files is
positive.  An empty key list for a file produces no chunks, so
`updateLocaleFile` is never called for such a file and nothing is written for
it (its pending deletions are still applied in memory). -/
def updateAllLocaleFiles (translationFn : TranslateFn) (mainLocale : Key)
    (mainLocaleInfo : LocaleInfo) (keysForFileName : List (Key × List Key))
    (localesInfo : List LocaleInfo) (deletedFileKeys : List (Key × List Key)) :
    List LocaleInfo × List Write :=
  let fileNames := jsKeys mainLocaleInfo.file
  if totalKeys fileNames keysForFileName > 0 then
    fileNames.foldl
      (updateFilesStep translationFn mainLocale mainLocaleInfo keysForFileName deletedFileKeys)
      (localesInfo, [])
  else (localesInfo, [])

/-- The disk, as a map from (locale, fileName) to the flat mapping last
written there (see `Write.content` for the encoding). -/
def applyWrites (disk : List (Key × List (Key × List (Key × JSON)))) (writes : List Write) :
    List (Key × List (Key × List (Key × JSON))) :=
  writes.foldl (fun d w => jsSet d w.locale (jsSet (jsGetD d w.locale []) w.fileName w.content)) disk

/-! ## Missing-key analysis (src/runner.ts lines 251–328, src/util.ts 277–303) -/

structure MissingKeys where
  locale : Key
  files : List (Key × List Key)
deriving DecidableEq, Repr

/-- Falsiness of a property read: absent (`undefined`) or a falsy value. -/
def jsFalsy (o : Option JSON) : Bool :=
  match o with
  | some v => !truthy v
  | none => true

/-- `!fileRecord[fileKey]` — an authoritative key counts as missing when the
locale's value for it is falsy (absent, empty string, `0`, `false`, `null`). -/
def missingForFile (fileKeys : List Key) (fileRecord : List (Key × JSON)) : List Key :=
  fileKeys.filter (fun k => jsFalsy (jsGet fileRecord k))

/-- Find-or-create of the per-locale record, then push the missing keys of one
file into `record.files[fileName]` (the file entry is only created when at
least one key is missing, the locale record itself unconditionally). -/
def addMissing (mks : List MissingKeys) (locale : Key) (fileName : Key)
    (newKeys : List Key) : List MissingKeys :=
  if mks.any (fun mk => mk.locale == locale) then
    mks.map (fun mk =>
      if mk.locale == locale then
        if newKeys.isEmpty then mk
        else
          let nf := jsSet mk.files fileName (jsGetD mk.files fileName [] ++ newKeys)
          { mk with files := nf }
      else mk)
  else
    mks ++ [{ locale := locale,
              files := if newKeys.isEmpty then [] else [(fileName, newKeys)] }]

/-- The inner `localesInfo.forEach` body of `getMissingKeys` for one file:
skip the main locale, otherwise record the file's missing keys for this
locale. -/
def missingStep (mainLocale fileName : Key) (fileKeys : List Key)
    (mks : List MissingKeys) (li : LocaleInfo) : List MissingKeys :=
  if li.locale == mainLocale then mks
  else addMissing mks li.locale fileName (missingForFile fileKeys (jsGetD li.file fileName []))

/-- The outer `fileNames.forEach` body of `getMissingKeys`. -/
def missingFileStep (localesInfo : List LocaleInfo) (mainLocale : Key)
    (mainLocaleInfo : LocaleInfo) (mks : List MissingKeys) (fileName : Key) :
    List MissingKeys :=
  localesInfo.foldl
    (missingStep mainLocale fileName (jsKeys (jsGetD mainLocaleInfo.file fileName []))) mks

/-- `getMissingKeys(localesInfo, mainLocale)` (src/runner.ts lines 256–306):
for each authoritative resource file and each non-main locale, the
authoritative keys whose value in that locale's flat mapping is falsy.
(When a locale lacks the file record entirely the JS code would throw on the
property read; `getFileContentForCodes` always populates every file for every
locale, and the theorems below carry that hypothesis.) -/
def getMissingKeys (localesInfo : List LocaleInfo) (mainLocale : Key) : List MissingKeys :=
  match localesInfo.find? (fun li => li.locale == mainLocale) with
  | none => []
  | some mainLocaleInfo =>
    (jsKeys mainLocaleInfo.file).foldl
      (missingFileStep localesInfo mainLocale mainLocaleInfo) []

/-- The missing-key list recorded for `locale` and `fileName` (empty when no
record or no file entry exists). -/
def missingFor (mks : List MissingKeys) (locale fileName : Key) : List Key :=
  match mks.find? (fun mk => mk.locale == locale) with
  | some mk => jsGetD mk.files fileName []
  | none => []

/-- First-occurrence deduplication: `new Set(array)` iterated in insertion
order. -/
def dedupKeepFirst (seen : List Key) : List Key → List Key
  | [] => []
  | x :: xs =>
    if seen.contains x then dedupKeepFirst seen xs
    else x :: dedupKeepFirst (seen ++ [x]) xs

/-- Increment the count of `s` in the insertion-ordered count map
(`stringCount.set(str, (stringCount.get(str) || 0) + 1)`). -/
def bumpCount (m : List (Key × Nat)) (s : Key) : List (Key × Nat) :=
  jsSet m s (jsGetD m s 0 + 1)

/-- `getCommonStrings(arrays)` (src/util.ts lines 277–303): count each string
once per array (via the `Set`), then keep the strings whose count equals the
number of arrays, in count-map insertion order. -/
def getCommonStrings (arrays : List (List Key)) : List Key :=
  if arrays.length = 0 then []
  else
    let stringCount := arrays.foldl (fun m array =>
      (dedupKeepFirst [] array).foldl bumpCount m) []
    (stringCount.filter (fun p => p.2 = arrays.length)).map Prod.fst

/-- `getCommonMissingKeys(missingKeys)` (src/runner.ts lines 308–328): runs
only when `missingKeys.length > 1` (one record exists per non-authoritative
locale, whether or not it has missing keys); the file names come from the
FIRST record; an absent `files[fileName]` becomes the empty set through
`new Set(undefined)`. -/
def getCommonMissingKeys (missingKeys : List MissingKeys) : List (Key × List Key) :=
  if missingKeys.length > 1 then
    match missingKeys with
    | [] => []
    | first :: _ =>
      (jsKeys first.files).foldl (fun commonKeys fileName =>
        let fileMissingKeys := missingKeys.map (fun mk => jsGetD mk.files fileName [])
        jsSet commonKeys fileName (getCommonStrings fileMissingKeys)) []
  else []

/-- `getUniqueStringArray` (src/util.ts lines 212–236). -/
def getUniqueStringArray (array1 array2 : List Key) : List Key :=
  dedupKeepFirst [] (array1 ++ array2)

/-! ## `translateJSON` (src/runner.ts lines 347–382) -/

/-- `translateJSON(locales, mainLocaleValues)`, modelled around the reply
handling:

* `backendReply` is the outcome of `await translationFn(...)` — `Except.error`
  models a rejected promise;
* `parse` models `JSON.parse` on the reply text — `none` models a parse
  exception.

The code wraps both in one `try`: a backend error or a parse error reaches
the `catch`, which calls `process.exit(1)` (modelled `Except.error`).  An
empty (falsy) reply string is never parsed: the result is `{}`. -/
def translateJSON (backendReply : Except Unit Key) (parse : Key → Option TransResult) :
    Except Unit TransResult :=
  match backendReply with
  | .error e => .error e
  | .ok messageContent =>
    if messageContent.isEmpty then .ok []
    else
      match parse messageContent with
      | some translatedJSON => .ok translatedJSON
      | none => .error ()

/-! # Proof layer -/

/-! ## Association-list lemmas -/

theorem jsGet_nil {α : Type} (k : Key) : jsGet ([] : List (Key × α)) k = none := rfl

theorem jsGet_cons {α : Type} (a : Key × α) (m : List (Key × α)) (k : Key) :
    jsGet (a :: m) k = if a.1 = k then some a.2 else jsGet m k := by
  by_cases h : a.1 = k
  · simp [jsGet, List.find?_cons, h]
  · have hb : (a.1 == k) = false := beq_eq_false_iff_ne.mpr h
    simp [jsGet, List.find?_cons, hb, h]

theorem jsGet_append {α : Type} (m m2 : List (Key × α)) (k : Key) :
    jsGet (m ++ m2) k = match jsGet m k with
      | some v => some v
      | none => jsGet m2 k := by
  induction m with
  | nil => simp [jsGet_nil]
  | cons a m ih =>
    rw [List.cons_append, jsGet_cons, jsGet_cons]
    by_cases h : a.1 = k
    · rw [if_pos h, if_pos h]
    · rw [if_neg h, if_neg h, ih]

theorem jsGet_isSome_iff {α : Type} (m : List (Key × α)) (k : Key) :
    (jsGet m k).isSome = true ↔ k ∈ jsKeys m := by
  induction m with
  | nil => simp [jsGet_nil, jsKeys]
  | cons a m ih =>
    rw [jsGet_cons]
    simp only [jsKeys, List.map_cons, List.mem_cons]
    by_cases h : a.1 = k
    · rw [if_pos h]
      constructor
      · intro _
        exact Or.inl h.symm
      · intro _
        rfl
    · simp only [h, if_false]
      rw [ih]
      simp only [jsKeys]
      constructor
      · exact Or.inr
      · rintro (rfl | hm)
        · exact absurd rfl h
        · exact hm

theorem jsGet_eq_none_iff {α : Type} (m : List (Key × α)) (k : Key) :
    jsGet m k = none ↔ k ∉ jsKeys m := by
  constructor
  · intro h hm
    have hs := (jsGet_isSome_iff m k).mpr hm
    rw [h] at hs
    exact Bool.noConfusion hs
  · intro hm
    cases hg : jsGet m k with
    | none => rfl
    | some v =>
      exact absurd ((jsGet_isSome_iff m k).mp (by rw [hg]; rfl)) hm

theorem jsGet_mem {α : Type} {m : List (Key × α)} {k : Key} {v : α}
    (h : jsGet m k = some v) : (k, v) ∈ m := by
  induction m with
  | nil => simp [jsGet_nil] at h
  | cons a m ih =>
    rw [jsGet_cons] at h
    by_cases ha : a.1 = k
    · rw [if_pos ha] at h
      have hv : a.2 = v := by injection h
      have hkv : (k, v) = a := by rw [← ha, ← hv]
      rw [hkv]
      exact List.mem_cons_self a m
    · rw [if_neg ha] at h
      exact List.mem_cons_of_mem _ (ih h)

theorem mem_jsGet {α : Type} {m : List (Key × α)} {k : Key} {v : α}
    (hnd : (jsKeys m).Nodup) (h : (k, v) ∈ m) : jsGet m k = some v := by
  induction m with
  | nil => simp at h
  | cons a m ih =>
    simp only [jsKeys, List.map_cons, List.nodup_cons] at hnd
    rcases List.mem_cons.mp h with h1 | h1
    · rw [← h1, jsGet_cons, if_pos rfl]
    · have hk : k ∈ jsKeys m := by
        simp only [jsKeys, List.mem_map]
        exact ⟨(k, v), h1, rfl⟩
      have hne : a.1 ≠ k := fun he => hnd.1 (he ▸ hk)
      rw [jsGet_cons, if_neg hne]
      exact ih hnd.2 h1

theorem mem_iff_jsGet {α : Type} {m : List (Key × α)} {k : Key} {v : α}
    (hnd : (jsKeys m).Nodup) : (k, v) ∈ m ↔ jsGet m k = some v :=
  ⟨mem_jsGet hnd, jsGet_mem⟩

theorem any_key_iff {α : Type} (m : List (Key × α)) (k : Key) :
    (m.any fun p => p.1 == k) = true ↔ k ∈ jsKeys m := by
  rw [List.any_eq_true]
  simp only [jsKeys, List.mem_map, beq_iff_eq]

theorem jsSet_of_not_mem {α : Type} {m : List (Key × α)} {k : Key} (v : α)
    (h : k ∉ jsKeys m) : jsSet m k v = m ++ [(k, v)] := by
  have hany : (m.any fun p => p.1 == k) = false := by
    rw [Bool.eq_false_iff]
    intro hc
    exact h ((any_key_iff m k).mp hc)
  simp [jsSet, hany]

theorem jsGet_overwrite_self {α : Type} (m : List (Key × α)) (k : Key) (v : α) :
    jsGet (m.map fun p => if p.1 == k then (k, v) else p) k =
      if k ∈ jsKeys m then some v else none := by
  induction m with
  | nil => simp [jsGet_nil, jsKeys]
  | cons a m ih =>
    simp only [List.map_cons]
    have hmem : k ∈ jsKeys (a :: m) ↔ a.1 = k ∨ k ∈ jsKeys m := by
      simp only [jsKeys, List.map_cons, List.mem_cons]
      constructor
      · rintro (rfl | hm)
        · exact Or.inl rfl
        · exact Or.inr hm
      · rintro (he | hm)
        · exact Or.inl he.symm
        · exact Or.inr hm
    by_cases ha : a.1 = k
    · have hb : (a.1 == k) = true := beq_iff_eq.mpr ha
      rw [if_pos hb, jsGet_cons, if_pos rfl, if_pos (hmem.mpr (Or.inl ha))]
    · have hb : ¬((a.1 == k) = true) := by
        rw [beq_iff_eq]
        exact ha
      rw [if_neg hb, jsGet_cons, if_neg ha, ih]
      by_cases hm : k ∈ jsKeys m
      · rw [if_pos hm, if_pos (hmem.mpr (Or.inr hm))]
      · rw [if_neg hm, if_neg (fun hc => ?_)]
        cases hmem.mp hc with
        | inl he => exact ha he
        | inr h2 => exact hm h2

theorem jsGet_overwrite_ne {α : Type} (m : List (Key × α)) (k k2 : Key) (v : α)
    (h : k2 ≠ k) :
    jsGet (m.map fun p => if p.1 == k then (k, v) else p) k2 = jsGet m k2 := by
  induction m with
  | nil => rfl
  | cons a m ih =>
    simp only [List.map_cons]
    by_cases ha : a.1 = k
    · have hb : (a.1 == k) = true := beq_iff_eq.mpr ha
      rw [if_pos hb, jsGet_cons, jsGet_cons]
      have h1 : ¬((k, v).1 = k2) := fun he => h he.symm
      have h2 : ¬(a.1 = k2) := fun he => h (by rw [← he, ha])
      rw [if_neg h1, if_neg h2, ih]
    · have hb : ¬((a.1 == k) = true) := by
        rw [beq_iff_eq]
        exact ha
      rw [if_neg hb, jsGet_cons, jsGet_cons, ih]

theorem jsGet_jsSet_self {α : Type} (m : List (Key × α)) (k : Key) (v : α) :
    jsGet (jsSet m k v) k = some v := by
  unfold jsSet
  by_cases hm : k ∈ jsKeys m
  · rw [if_pos ((any_key_iff m k).mpr hm), jsGet_overwrite_self, if_pos hm]
  · rw [if_neg (fun hc => hm ((any_key_iff m k).mp hc)), jsGet_append]
    rw [(jsGet_eq_none_iff m k).mpr hm]
    simp [jsGet_cons]

theorem jsGet_jsSet_ne {α : Type} (m : List (Key × α)) (k k2 : Key) (v : α)
    (h : k2 ≠ k) : jsGet (jsSet m k v) k2 = jsGet m k2 := by
  unfold jsSet
  by_cases hany : (m.any fun p => p.1 == k) = true
  · rw [if_pos hany]
    exact jsGet_overwrite_ne m k k2 v h
  · rw [if_neg hany, jsGet_append]
    have h2 : jsGet [(k, v)] k2 = none := by
      rw [jsGet_cons, if_neg (fun he => h (Eq.symm he))]
      rfl
    cases hg : jsGet m k2 <;> simp [h2]

theorem jsKeys_append {α : Type} (m m2 : List (Key × α)) :
    jsKeys (m ++ m2) = jsKeys m ++ jsKeys m2 := by
  simp [jsKeys]

theorem jsKeys_jsSet_mem {α : Type} (m : List (Key × α)) (k : Key) (v : α)
    (h : k ∈ jsKeys m) : jsKeys (jsSet m k v) = jsKeys m := by
  unfold jsSet
  rw [if_pos ((any_key_iff m k).mpr h)]
  simp only [jsKeys, List.map_map]
  apply List.map_congr_left
  intro p _
  simp only [Function.comp_apply]
  by_cases hp : p.1 = k
  · have hb : (p.1 == k) = true := beq_iff_eq.mpr hp
    rw [if_pos hb]
    exact hp.symm
  · have hb : ¬((p.1 == k) = true) := by
      rw [beq_iff_eq]
      exact hp
    rw [if_neg hb]

theorem jsKeys_jsSet_not_mem {α : Type} (m : List (Key × α)) (k : Key) (v : α)
    (h : k ∉ jsKeys m) : jsKeys (jsSet m k v) = jsKeys m ++ [k] := by
  rw [jsSet_of_not_mem v h, jsKeys_append]
  rfl

theorem mem_jsKeys_jsSet {α : Type} (m : List (Key × α)) (k k2 : Key) (v : α) :
    k2 ∈ jsKeys (jsSet m k v) ↔ k2 ∈ jsKeys m ∨ k2 = k := by
  by_cases h : k ∈ jsKeys m
  · rw [jsKeys_jsSet_mem m k v h]
    constructor
    · exact Or.inl
    · rintro (h2 | rfl)
      · exact h2
      · exact h
  · rw [jsKeys_jsSet_not_mem m k v h]
    simp

theorem jsKeys_jsSet_nodup {α : Type} (m : List (Key × α)) (k : Key) (v : α)
    (h : (jsKeys m).Nodup) : (jsKeys (jsSet m k v)).Nodup := by
  by_cases hm : k ∈ jsKeys m
  · rw [jsKeys_jsSet_mem m k v hm]; exact h
  · rw [jsKeys_jsSet_not_mem m k v hm]
    simp [List.nodup_append, h, hm]

theorem jsGet_jsDelete_self {α : Type} (m : List (Key × α)) (k : Key) :
    jsGet (jsDelete m k) k = none := by
  induction m with
  | nil => rfl
  | cons a m ih =>
    unfold jsDelete at ih ⊢
    by_cases h : a.1 = k
    · have hb : (a.1 == k) = true := beq_iff_eq.mpr h
      simp only [List.filter_cons, hb, Bool.not_true, Bool.false_eq_true, if_false]
      exact ih
    · have hb : (a.1 == k) = false := beq_eq_false_iff_ne.mpr h
      simp only [List.filter_cons, hb, Bool.not_false, if_true]
      rw [jsGet_cons, if_neg h]
      exact ih

theorem jsGet_jsDelete_ne {α : Type} (m : List (Key × α)) (k k2 : Key) (h : k2 ≠ k) :
    jsGet (jsDelete m k) k2 = jsGet m k2 := by
  induction m with
  | nil => rfl
  | cons a m ih =>
    unfold jsDelete at ih ⊢
    by_cases ha : a.1 = k
    · have hb : (a.1 == k) = true := beq_iff_eq.mpr ha
      simp only [List.filter_cons, hb, Bool.not_true, Bool.false_eq_true, if_false]
      rw [ih, jsGet_cons, if_neg (ha ▸ fun he => h he.symm)]
    · have hb : (a.1 == k) = false := beq_eq_false_iff_ne.mpr ha
      simp only [List.filter_cons, hb, Bool.not_false, if_true]
      rw [jsGet_cons, jsGet_cons, ih]

theorem mem_jsKeys_jsDelete {α : Type} (m : List (Key × α)) (k k2 : Key) :
    k2 ∈ jsKeys (jsDelete m k) ↔ k2 ∈ jsKeys m ∧ k2 ≠ k := by
  simp only [jsKeys, jsDelete, List.mem_map]
  constructor
  · rintro ⟨p, hp, rfl⟩
    have hf := List.mem_filter.mp hp
    refine ⟨⟨p, hf.1, rfl⟩, ?_⟩
    have := hf.2
    simp only [Bool.not_eq_true'] at this
    exact beq_eq_false_iff_ne.mp this
  · rintro ⟨⟨p, hp, rfl⟩, hne⟩
    refine ⟨p, List.mem_filter.mpr ⟨hp, ?_⟩, rfl⟩
    simp only [Bool.not_eq_true']
    exact beq_eq_false_iff_ne.mpr hne

theorem key_contains_iff (l : List Key) (k : Key) : l.contains k = true ↔ k ∈ l :=
  List.elem_iff

theorem nodupKeys_iff (l : List Key) : nodupKeys l = true ↔ l.Nodup := by
  induction l with
  | nil => simp [nodupKeys]
  | cons k rest ih =>
    simp only [nodupKeys, Bool.and_eq_true, Bool.not_eq_true']
    rw [List.nodup_cons, ih]
    constructor
    · rintro ⟨h1, h2⟩
      refine ⟨fun hm => ?_, h2⟩
      rw [Bool.eq_false_iff] at h1
      exact h1 ((key_contains_iff rest k).mpr hm)
    · rintro ⟨h1, h2⟩
      refine ⟨?_, h2⟩
      rw [Bool.eq_false_iff]
      exact fun hc => h1 ((key_contains_iff rest k).mp hc)

/-! ## Change-set extractor: fold characterisations -/

theorem foldl_congr_fun {α β : Type} (l : List β) (f g : α → β → α) (init : α)
    (h : ∀ acc b, f acc b = g acc b) : l.foldl f init = l.foldl g init := by
  induction l generalizing init with
  | nil => rfl
  | cons b l ih =>
    rw [List.foldl_cons, List.foldl_cons, h, ih]

theorem foldl_push_fst (l : List (Key × JSON)) (a b : List Key) :
    l.foldl (fun acc kv => (acc.1 ++ [kv.1], acc.2)) (a, b) = (a ++ jsKeys l, b) := by
  induction l generalizing a with
  | nil => simp [jsKeys]
  | cons kv l ih =>
    rw [List.foldl_cons, ih]
    simp [jsKeys]

theorem foldl_push_snd (l : List (Key × JSON)) (p : Key × JSON → Bool) (a b : List Key) :
    l.foldl (fun acc kv => if p kv then acc else (acc.1, acc.2 ++ [kv.1])) (a, b) =
      (a, b ++ jsKeys (l.filter (fun kv => !p kv))) := by
  induction l generalizing b with
  | nil => simp [jsKeys]
  | cons kv l ih =>
    rw [List.foldl_cons, List.filter_cons]
    by_cases hp : p kv = true
    · simp only [hp, if_true, Bool.not_true, Bool.false_eq_true, if_false]
      exact ih b
    · simp only [Bool.not_eq_true] at hp
      simp only [hp, Bool.false_eq_true, if_false, Bool.not_false, if_true]
      rw [ih]
      simp [jsKeys]

/-- The `replaced`/`deleted` loop of `getGitDiffJSON` (over the previous
snapshot), characterised by filters of the previous entries. -/
theorem diff_step1_spec (current prev : List (Key × JSON)) (a b : List Key) :
    prev.foldl (diffStep1 current) (a, b) =
      (a ++ jsKeys (prev.filter (fun kv =>
          match jsGet current kv.1 with
          | some c => !jsAreEqual kv.2 c
          | none => false)),
       b ++ jsKeys (prev.filter (fun kv => (jsGet current kv.1).isNone))) := by
  induction prev generalizing a b with
  | nil => simp [jsKeys]
  | cons kv prev ih =>
    rw [List.foldl_cons, List.filter_cons, List.filter_cons]
    cases hg : jsGet current kv.1 with
    | some c =>
      by_cases he : jsAreEqual kv.2 c = true
      · have hstep : diffStep1 current (a, b) kv = (a, b) := by
          unfold diffStep1
          rw [hg]
          simp [he]
        rw [hstep, ih]
        simp only [hg, he, Option.isNone_some, Bool.not_true, Bool.false_eq_true, if_false]
      · have hstep : diffStep1 current (a, b) kv = (a ++ [kv.1], b) := by
          unfold diffStep1
          rw [hg]
          simp [he]
        rw [hstep, ih]
        simp only [Bool.not_eq_true] at he
        simp only [hg, he, Option.isNone_some, Bool.not_false, if_true,
          Bool.false_eq_true, if_false]
        simp [jsKeys]
    | none =>
      have hstep : diffStep1 current (a, b) kv = (a, b ++ [kv.1]) := by
        unfold diffStep1
        rw [hg]
      rw [hstep, ih]
      simp only [hg, Option.isNone_none, if_true]
      simp [jsKeys]

/-- The `added`/forced-`replaced` loop of `getGitDiffJSON`. -/
theorem diff_step2_spec (prev current : List (Key × JSON)) (force : Bool) (a b : List Key) :
    current.foldl (diffStep2 force prev) (a, b) =
      if force then (a ++ jsKeys current, b)
      else (a, b ++ jsKeys (current.filter (fun kv => !(jsGet prev kv.1).isSome))) := by
  cases force
  · simp only [Bool.false_eq_true, if_false]
    rw [← foldl_push_snd current (fun kv => (jsGet prev kv.1).isSome) a b]
    apply foldl_congr_fun
    intro acc kv
    unfold diffStep2
    simp
  · simp only [if_true]
    rw [← foldl_push_fst current a b]
    apply foldl_congr_fun
    intro acc kv
    unfold diffStep2
    simp

/-! ## Claim C6 — force flag -/

/-- C6: with the force flag set, `getGitDiffJSON` classifies every key of the
current file as replaced (in the file's own key order), returns empty
`deleted` and `added` lists, and its result does not depend on the
version-control history at all (the history argument is arbitrary here). -/
theorem getGitDiffJSON_force (current : List (Key × JSON))
    (history : Option (List (Key × JSON))) :
    getGitDiffJSON current history true =
      { replaced := jsKeys current, deleted := [], added := [] } := by
  unfold getGitDiffJSON
  simp only [if_true, List.foldl_nil, diff_step2_spec]
  simp

/-! ## Claim C9 — history-lookup failure -/

/-- C9: when the history lookup fails (`none`), `getGitDiffJSON` proceeds with
the empty object as previous snapshot and returns normally — every current
key is classified as added (in the file's key order), nothing as replaced or
deleted.  Likewise, `flattenJSONFile` with a failing git lookup recovers to
the empty flat map. -/
theorem getGitDiffJSON_history_miss (current : List (Key × JSON)) :
    getGitDiffJSON current none false =
      { replaced := [], deleted := [], added := jsKeys current } ∧
    flattenJSONFileGit none = [] := by
  constructor
  · unfold getGitDiffJSON
    simp only [Bool.false_eq_true, if_false, Option.getD_none, List.foldl_nil,
      diff_step2_spec]
    simp [jsGet_nil, jsKeys]
  · rfl

/-! ## Claim C2 — change-set classification -/

theorem mem_filter_keys_iff (l : List (Key × JSON)) (p : Key × JSON → Bool) (k : Key) :
    k ∈ jsKeys (l.filter p) ↔ ∃ v, (k, v) ∈ l ∧ p (k, v) = true := by
  simp only [jsKeys, List.mem_map, List.mem_filter]
  constructor
  · rintro ⟨kv, ⟨hm, hpv⟩, rfl⟩
    exact ⟨kv.2, hm, hpv⟩
  · rintro ⟨v, hm, hpv⟩
    exact ⟨(k, v), ⟨hm, hpv⟩, rfl⟩

/-- The fully computed form of `getGitDiffJSON` without the force flag. -/
theorem getGitDiffJSON_eq (previous current : List (Key × JSON)) :
    getGitDiffJSON current (some previous) false =
      { replaced := jsKeys (previous.filter (fun kv =>
          match jsGet current kv.1 with
          | some c => !jsAreEqual kv.2 c
          | none => false)),
        deleted := jsKeys (previous.filter (fun kv => (jsGet current kv.1).isNone)),
        added := jsKeys (current.filter (fun kv => !(jsGet previous kv.1).isSome)) } := by
  unfold getGitDiffJSON
  simp only [Bool.false_eq_true, if_false, Option.getD_some]
  rw [diff_step1_spec, diff_step2_spec]
  simp

/-- C2: without the force flag, `getGitDiffJSON` classifies a key as replaced
iff it is present in both snapshots with values the code's comparison
(`jsAreEqual`: serialized equality for arrays, `===` otherwise) rejects, as
deleted iff present previously but absent now, and as added iff present now
but absent previously; on the spec's example the result is added `[c]`,
replaced `[b]`, deleted `[]`.  (The key-set of a JS object is duplicate-free,
hence the `Nodup` hypothesis.) -/
theorem getGitDiffJSON_classification (previous current : List (Key × JSON))
    (hnd : (jsKeys previous).Nodup) :
    (∀ k, k ∈ (getGitDiffJSON current (some previous) false).replaced ↔
      ∃ pv cv, jsGet previous k = some pv ∧ jsGet current k = some cv ∧
        jsAreEqual pv cv = false) ∧
    (∀ k, k ∈ (getGitDiffJSON current (some previous) false).deleted ↔
      k ∈ jsKeys previous ∧ jsGet current k = none) ∧
    (∀ k, k ∈ (getGitDiffJSON current (some previous) false).added ↔
      k ∈ jsKeys current ∧ jsGet previous k = none) ∧
    getGitDiffJSON [(chars "a", JSON.num 1), (chars "b", JSON.num 3), (chars "c", JSON.num 4)]
        (some [(chars "a", JSON.num 1), (chars "b", JSON.num 2)]) false =
      { replaced := [chars "b"], deleted := [], added := [chars "c"] } := by
  rw [getGitDiffJSON_eq]
  refine ⟨?_, ?_, ?_, by decide⟩
  · intro k
    rw [mem_filter_keys_iff]
    constructor
    · rintro ⟨v, hm, hpv⟩
      cases hg : jsGet current k with
      | some c =>
        refine ⟨v, c, mem_jsGet hnd hm, rfl, ?_⟩
        rw [hg] at hpv
        simp only at hpv
        rw [Bool.not_eq_true'] at hpv
        exact hpv
      | none =>
        rw [hg] at hpv
        simp at hpv
    · rintro ⟨pv, cv, hgp, hgc, hne⟩
      refine ⟨pv, jsGet_mem hgp, ?_⟩
      rw [hgc]
      simp only [Bool.not_eq_true']
      simpa using hne
  · intro k
    rw [mem_filter_keys_iff]
    constructor
    · rintro ⟨v, hm, hpv⟩
      refine ⟨List.mem_map_of_mem Prod.fst hm, ?_⟩
      simpa [Option.isNone_iff_eq_none] using hpv
    · rintro ⟨hk, hg⟩
      obtain ⟨kv, hkv, rfl⟩ := List.mem_map.mp hk
      exact ⟨kv.2, hkv, by simp [hg]⟩
  · intro k
    rw [mem_filter_keys_iff]
    constructor
    · rintro ⟨v, hm, hpv⟩
      refine ⟨List.mem_map_of_mem Prod.fst hm, ?_⟩
      simp only [Bool.not_eq_true'] at hpv
      rw [← Option.not_isSome_iff_eq_none]
      rw [hpv]
      simp
    · rintro ⟨hk, hg⟩
      obtain ⟨kv, hkv, rfl⟩ := List.mem_map.mp hk
      refine ⟨kv.2, hkv, ?_⟩
      simp [hg]

/-- Witness for C2: applying the classification at the spec's example, `b` is
replaced because `2 !== 3`. -/
theorem getGitDiffJSON_classification_witness :
    chars "b" ∈ (getGitDiffJSON
      [(chars "a", JSON.num 1), (chars "b", JSON.num 3), (chars "c", JSON.num 4)]
      (some [(chars "a", JSON.num 1), (chars "b", JSON.num 2)]) false).replaced :=
  ((getGitDiffJSON_classification
      [(chars "a", JSON.num 1), (chars "b", JSON.num 2)]
      [(chars "a", JSON.num 1), (chars "b", JSON.num 3), (chars "c", JSON.num 4)]
      (by decide)).1 (chars "b")).mpr
    ⟨JSON.num 2, JSON.num 3, by decide, by decide, by decide⟩

/-! ## Claim C3 — written key order mirrors the authoritative file -/

theorem reorder_go (t : List (Key × JSON)) (m : List (Key × JSON)) :
    ∀ acc : List (Key × JSON), (jsKeys m).Nodup → (∀ k, k ∈ jsKeys m → k ∉ jsKeys acc) →
    jsKeys (m.foldl (reorderStep t) acc) =
      jsKeys acc ++ (jsKeys m).filter (fun k => (jsGet t k).isSome) := by
  induction m with
  | nil => intro acc _ _; simp [jsKeys]
  | cons kv m ih =>
    intro acc hnd hfresh
    simp only [jsKeys, List.map_cons, List.nodup_cons] at hnd
    rw [List.foldl_cons]
    have hkeys : jsKeys (kv :: m) = kv.1 :: jsKeys m := rfl
    rw [hkeys, List.filter_cons]
    cases hg : jsGet t kv.1 with
    | some v =>
      have hstep : reorderStep t acc kv = acc ++ [(kv.1, v)] := by
        unfold reorderStep
        rw [hg]
        exact jsSet_of_not_mem v (hfresh kv.1 (by rw [hkeys]; exact List.mem_cons_self _ _))
      rw [hstep, ih (acc ++ [(kv.1, v)]) hnd.2 ?fresh]
      case fresh =>
        intro k hk
        rw [jsKeys_append]
        simp only [List.mem_append]
        rintro (hka | hka)
        · exact hfresh k (by rw [hkeys]; exact List.mem_cons_of_mem _ hk) hka
        · have : k = kv.1 := by simpa [jsKeys] using hka
          exact hnd.1 (this ▸ hk)
      rw [jsKeys_append]
      simp only [hg, Option.isSome_some, if_true]
      have : jsKeys [(kv.1, v)] = [kv.1] := rfl
      rw [this, List.append_assoc]
      rfl
    | none =>
      have hstep : reorderStep t acc kv = acc := by
        unfold reorderStep
        rw [hg]
      rw [hstep, ih acc hnd.2 (fun k hk => hfresh k (by rw [hkeys]; exact List.mem_cons_of_mem _ hk))]
      simp only [hg, Option.isSome_none, Bool.false_eq_true, if_false]

/-- C3: the flat mapping written for a non-authoritative locale file has
exactly the authoritative file's key sequence restricted to the keys defined
in that locale's flat mapping; the result depends on the locale's mapping
only through lookup (so it is independent of response ordering and of the
file's prior on-disk ordering); and every write performed by
`updateLocaleFile` is of exactly this reordered form. -/
theorem reorder_key_order (mainFileContents : List (Key × JSON))
    (t : List (Key × JSON)) (hnd : (jsKeys mainFileContents).Nodup) :
    jsKeys (reorderLocaleFile mainFileContents t) =
      (jsKeys mainFileContents).filter (fun k => (jsGet t k).isSome) ∧
    (∀ t2, (∀ k, jsGet t k = jsGet t2 k) →
      reorderLocaleFile mainFileContents t = reorderLocaleFile mainFileContents t2) ∧
    (∀ (tf : TranslateFn) (mainLocale fileName : Key) (mainInfo : LocaleInfo)
        (keys : List Key) (infos : List LocaleInfo) (w : Write),
      w ∈ (updateLocaleFile tf mainLocale fileName mainInfo keys infos).2 →
      ∃ li : LocaleInfo, (!(li.locale == mainLocale)) = true ∧ w.locale = li.locale ∧
        w.fileName = fileName ∧
        w.content = reorderLocaleFile (jsGetD mainInfo.file fileName [])
          (jsGetD li.file fileName [])) := by
  refine ⟨?_, ?_, ?_⟩
  · unfold reorderLocaleFile
    rw [reorder_go t mainFileContents [] hnd (fun k _ => by simp [jsKeys])]
    rfl
  · intro t2 heq
    unfold reorderLocaleFile
    apply foldl_congr_fun
    intro acc kv
    unfold reorderStep
    rw [heq kv.1]
  · intro tf mainLocale fileName mainInfo keys infos w hw
    unfold updateLocaleFile at hw
    simp only [List.mem_map, List.mem_filter] at hw
    obtain ⟨li, ⟨_, hli⟩, rfl⟩ := hw
    exact ⟨li, hli, rfl, rfl, rfl⟩

/-- Witness for C3 at a concrete input: main keys `a, b, c`; the locale map
(listed in scrambled order) defines `c` and `a` only, so the written key
sequence is `a, c`. -/
theorem reorder_key_order_witness :
    jsKeys (reorderLocaleFile
      [(chars "a", JSON.str (chars "A")), (chars "b", JSON.str (chars "B")),
       (chars "c", JSON.str (chars "C"))]
      [(chars "c", JSON.str (chars "C1")), (chars "a", JSON.str (chars "A1"))]) =
      [chars "a", chars "c"] :=
  (reorder_key_order
    [(chars "a", JSON.str (chars "A")), (chars "b", JSON.str (chars "B")),
     (chars "c", JSON.str (chars "C"))]
    [(chars "c", JSON.str (chars "C1")), (chars "a", JSON.str (chars "A1"))]
    (by decide)).1.trans (by decide)

/-! ## Claim C5 — common missing keys -/

theorem dedup_mem (l : List Key) : ∀ (seen : List Key) (k : Key),
    k ∈ dedupKeepFirst seen l ↔ k ∈ l ∧ k ∉ seen := by
  induction l with
  | nil => intro seen k; simp [dedupKeepFirst]
  | cons x xs ih =>
    intro seen k
    unfold dedupKeepFirst
    by_cases hx : seen.contains x = true
    · rw [if_pos hx, ih]
      have hxs : x ∈ seen := (key_contains_iff seen x).mp hx
      constructor
      · rintro ⟨hk, hks⟩
        exact ⟨List.mem_cons_of_mem _ hk, hks⟩
      · rintro ⟨hk, hks⟩
        rcases List.mem_cons.mp hk with rfl | hk2
        · exact absurd hxs hks
        · exact ⟨hk2, hks⟩
    · rw [if_neg hx]
      have hxs : x ∉ seen := fun hm => hx ((key_contains_iff seen x).mpr hm)
      rw [List.mem_cons, ih]
      constructor
      · rintro (rfl | ⟨hk, hks⟩)
        · exact ⟨List.mem_cons_self _ _, hxs⟩
        · refine ⟨List.mem_cons_of_mem _ hk, fun hm => hks ?_⟩
          simp [hm]
      · rintro ⟨hk, hks⟩
        rcases List.mem_cons.mp hk with rfl | hk2
        · exact Or.inl rfl
        · by_cases hkx : k = x
          · exact Or.inl hkx
          · refine Or.inr ⟨hk2, fun hm => ?_⟩
            simp only [List.mem_append, List.mem_singleton] at hm
            rcases hm with hm | hm
            · exact hks hm
            · exact hkx hm

theorem dedup_nodup (l : List Key) : ∀ seen : List Key, (dedupKeepFirst seen l).Nodup := by
  induction l with
  | nil => intro seen; simp [dedupKeepFirst]
  | cons x xs ih =>
    intro seen
    unfold dedupKeepFirst
    by_cases hx : seen.contains x = true
    · rw [if_pos hx]
      exact ih seen
    · rw [if_neg hx]
      rw [List.nodup_cons]
      refine ⟨fun hm => ?_, ih (seen ++ [x])⟩
      have := (dedup_mem xs (seen ++ [x]) x).mp hm
      exact this.2 (by simp)

theorem bump_cnt (m : List (Key × Nat)) (sKey k : Key) :
    jsGetD (bumpCount m sKey) k 0 = jsGetD m k 0 + (if k = sKey then 1 else 0) := by
  unfold bumpCount jsGetD
  by_cases hk : k = sKey
  · rw [hk, jsGet_jsSet_self]
    simp
  · rw [jsGet_jsSet_ne m sKey k _ hk, if_neg hk]
    simp

theorem cnt_fold_nodup (d : List Key) : ∀ m : List (Key × Nat), d.Nodup → ∀ k,
    jsGetD (d.foldl bumpCount m) k 0 = jsGetD m k 0 + (if k ∈ d then 1 else 0) := by
  induction d with
  | nil => intro m _ k; simp
  | cons x xs ih =>
    intro m hnd k
    rw [List.nodup_cons] at hnd
    rw [List.foldl_cons, ih (bumpCount m x) hnd.2 k, bump_cnt]
    by_cases hk : k = x
    · subst hk
      simp [hnd.1]
    · simp only [hk, if_false, add_zero, List.mem_cons]
      by_cases hks : k ∈ xs <;> simp [hks, hk]

theorem cnt_arrays (arrays : List (List Key)) : ∀ (m : List (Key × Nat)) (k : Key),
    jsGetD (arrays.foldl (fun m array => (dedupKeepFirst [] array).foldl bumpCount m) m) k 0 =
      jsGetD m k 0 + arrays.countP (fun a => a.contains k) := by
  induction arrays with
  | nil => intro m k; simp
  | cons a as ih =>
    intro m k
    rw [List.foldl_cons, ih, cnt_fold_nodup (dedupKeepFirst [] a) m (dedup_nodup a []) k]
    rw [List.countP_cons]
    have hmem : k ∈ dedupKeepFirst [] a ↔ k ∈ a := by
      rw [dedup_mem]
      simp
    by_cases hk : k ∈ a
    · rw [if_pos (hmem.mpr hk), if_pos ((key_contains_iff a k).mpr hk)]
      omega
    · rw [if_neg (fun hm => hk (hmem.mp hm)),
        if_neg (fun hcc => hk ((key_contains_iff a k).mp hcc))]
      omega

theorem cnt_keys_nodup (arrays : List (List Key)) : ∀ m : List (Key × Nat),
    (jsKeys m).Nodup →
    (jsKeys (arrays.foldl (fun m array => (dedupKeepFirst [] array).foldl bumpCount m) m)).Nodup := by
  have inner : ∀ (d : List Key) (m : List (Key × Nat)), (jsKeys m).Nodup →
      (jsKeys (d.foldl bumpCount m)).Nodup := by
    intro d
    induction d with
    | nil => intro m h; exact h
    | cons x xs ih =>
      intro m h
      rw [List.foldl_cons]
      exact ih _ (jsKeys_jsSet_nodup m x _ h)
  induction arrays with
  | nil => intro m h; exact h
  | cons a as ih =>
    intro m h
    rw [List.foldl_cons]
    exact ih _ (inner _ m h)

/-- `getCommonStrings` computes exactly the intersection: a string is in the
result iff it occurs in every array. -/
theorem getCommonStrings_mem (arrays : List (List Key)) (hne : arrays ≠ []) (k : Key) :
    k ∈ getCommonStrings arrays ↔ ∀ a ∈ arrays, k ∈ a := by
  unfold getCommonStrings
  rw [if_neg (by simpa [List.length_eq_zero] using hne)]
  have hlen : 0 < arrays.length := List.length_pos.mpr hne
  have hcnt := cnt_arrays arrays [] k
  have hnd := cnt_keys_nodup arrays [] (by simp [jsKeys])
  simp only [jsGetD, jsGet_nil, Option.getD_none, Nat.zero_add] at hcnt
  constructor
  · intro hm
    simp only [List.mem_map, List.mem_filter, decide_eq_true_eq] at hm
    obtain ⟨p, ⟨hp, hptot⟩, rfl⟩ := hm
    have hg : jsGet (arrays.foldl
        (fun m array => (dedupKeepFirst [] array).foldl bumpCount m) []) p.1 = some p.2 := by
      exact mem_jsGet hnd (by exact hp)
    rw [hg] at hcnt
    simp only [Option.getD_some] at hcnt
    rw [hptot] at hcnt
    intro a ha
    exact (key_contains_iff a p.1).mp (List.countP_eq_length.mp hcnt.symm a ha)
  · intro hall
    have hc : arrays.countP (fun a => a.contains k) = arrays.length :=
      List.countP_eq_length.mpr (fun a ha => (key_contains_iff a k).mpr (hall a ha))
    cases hg : jsGet (arrays.foldl
        (fun m array => (dedupKeepFirst [] array).foldl bumpCount m) []) k with
    | none =>
      exfalso
      rw [hg] at hcnt
      simp only [Option.getD_none] at hcnt
      omega
    | some c =>
      rw [hg] at hcnt
      simp only [Option.getD_some] at hcnt
      simp only [List.mem_map, List.mem_filter, decide_eq_true_eq]
      exact ⟨(k, c), ⟨jsGet_mem hg, by rw [hcnt, hc]⟩, rfl⟩

theorem foldl_jsSet_lookup {α : Type} (g : Key → α) (FS : List Key) :
    ∀ (acc : List (Key × α)) (F : Key), FS.Nodup → (∀ f ∈ FS, f ∉ jsKeys acc) →
    jsGet (FS.foldl (fun m f => jsSet m f (g f)) acc) F =
      if F ∈ FS then some (g F) else jsGet acc F := by
  induction FS with
  | nil => intro acc F _ _; simp
  | cons f fs ih =>
    intro acc F hnd hfresh
    rw [List.nodup_cons] at hnd
    have hfr : f ∉ jsKeys acc := hfresh f (List.mem_cons_self _ _)
    rw [List.foldl_cons, ih (jsSet acc f (g f)) F hnd.2 ?fresh]
    case fresh =>
      intro f2 hf2
      rw [jsSet_of_not_mem _ hfr, jsKeys_append]
      simp only [List.mem_append]
      rintro (hm | hm)
      · exact hfresh f2 (List.mem_cons_of_mem _ hf2) hm
      · have : f2 = f := by simpa [jsKeys] using hm
        exact hnd.1 (this ▸ hf2)
    by_cases hFfs : F ∈ fs
    · rw [if_pos hFfs, if_pos (List.mem_cons_of_mem _ hFfs)]
    · rw [if_neg hFfs]
      by_cases hFf : F = f
      · rw [if_pos (hFf ▸ List.mem_cons_self f fs), hFf, jsGet_jsSet_self]
      · rw [jsGet_jsSet_ne acc f F _ hFf, if_neg ?notmem]
        case notmem =>
          rw [List.mem_cons]
          rintro (h1 | h1)
          · exact hFf h1
          · exact hFfs h1

/-- Counterexample to C5 as stated: with two non-authoritative locale records
of which only `fr` has any missing keys (`de` has none), `missingKeys.length
> 1` still holds, so `getCommonMissingKeys` IS computed — it returns the
non-empty record `[(app.json, [])]` instead of being skipped.  The guard
counts locale records (one per non-authoritative locale), not locales that
actually have missing keys. -/
theorem getCommonMissingKeys_computed_for_one :
    (([{ locale := chars "fr", files := [(chars "app.json", [chars "x"])] },
       { locale := chars "de", files := [] }] : List MissingKeys).filter
        (fun mk => !mk.files.isEmpty)).length = 1 ∧
    getCommonMissingKeys
      [{ locale := chars "fr", files := [(chars "app.json", [chars "x"])] },
       { locale := chars "de", files := [] }] =
      [(chars "app.json", [])] := by
  constructor
  · rfl
  · rfl

/-- C5 as amended: `getCommonMissingKeys` is computed exactly when there are
at least two non-authoritative locale *records* (one exists per
non-authoritative locale, with or without missing keys); in that case, for
every file of the first record, the common set is the intersection of every
record's missing list for that file (an absent file entry counting as empty);
and on the spec's example (`fr` missing `x`; `de` missing `x, y`) the common
set is `[x]` and `de`'s remainder is `[y]`. -/
theorem getCommonMissingKeys_intersection :
    (∀ mks : List MissingKeys, mks.length ≤ 1 → getCommonMissingKeys mks = []) ∧
    (∀ (first : MissingKeys) (rest : List MissingKeys),
      (first :: rest).length > 1 → (jsKeys first.files).Nodup →
      ∀ F ∈ jsKeys first.files, ∀ k,
        (k ∈ jsGetD (getCommonMissingKeys (first :: rest)) F [] ↔
          ∀ mk ∈ first :: rest, k ∈ jsGetD mk.files F [])) ∧
    (getCommonMissingKeys
        [{ locale := chars "fr", files := [(chars "app.json", [chars "x"])] },
         { locale := chars "de", files := [(chars "app.json", [chars "x", chars "y"])] }] =
      [(chars "app.json", [chars "x"])] ∧
     (([chars "x", chars "y"] : List Key).filter (fun k => !(k ∈ [chars "x"] : Bool))) =
      [chars "y"]) := by
  refine ⟨?_, ?_, by decide, by decide⟩
  · intro mks hlen
    unfold getCommonMissingKeys
    rw [if_neg (by omega)]
  · intro first rest hlen hnd F hF k
    unfold getCommonMissingKeys
    rw [if_pos (by simpa using hlen)]
    have hfold := foldl_jsSet_lookup
      (fun fileName => getCommonStrings ((first :: rest).map (fun mk => jsGetD mk.files fileName [])))
      (jsKeys first.files) [] F hnd (by simp [jsKeys])
    rw [jsGetD, hfold, if_pos hF]
    simp only [Option.getD_some]
    rw [getCommonStrings_mem _ (by simp) k]
    constructor
    · intro hall mk hmk
      have := hall (jsGetD mk.files F []) (List.mem_map_of_mem _ hmk)
      exact this
    · intro hall a ha
      obtain ⟨mk, hmk, rfl⟩ := List.mem_map.mp ha
      exact hall mk hmk

/-- Witness for C5 at the spec's example: `x` is common because it is missing
in both `fr` and `de`. -/
theorem getCommonMissingKeys_intersection_witness :
    chars "x" ∈ jsGetD (getCommonMissingKeys
      [{ locale := chars "fr", files := [(chars "app.json", [chars "x"])] },
       { locale := chars "de", files := [(chars "app.json", [chars "x", chars "y"])] }])
      (chars "app.json") [] :=
  ((getCommonMissingKeys_intersection.2.1
      { locale := chars "fr", files := [(chars "app.json", [chars "x"])] }
      [{ locale := chars "de", files := [(chars "app.json", [chars "x", chars "y"])] }]
      (by decide) (by decide) (chars "app.json") (by decide) (chars "x"))).mpr
    (by decide)

/-! ## Claim C8 — missing means falsy -/

theorem find?_map_locale (mks : List MissingKeys) (g : MissingKeys → MissingKeys)
    (hg : ∀ mk, (g mk).locale = mk.locale) (loc : Key) :
    (mks.map g).find? (fun mk => mk.locale == loc) =
      (mks.find? (fun mk => mk.locale == loc)).map g := by
  induction mks with
  | nil => rfl
  | cons mk rest ih =>
    rw [List.map_cons]
    by_cases hp : (mk.locale == loc) = true
    · simp only [List.find?_cons, hg, hp, if_true]
      rfl
    · have hp2 : (mk.locale == loc) = false := by
        rw [Bool.eq_false_iff]
        exact hp
      simp only [List.find?_cons, hg, hp2, Bool.false_eq_true, if_false]
      exact ih

theorem addMissing_locale_preserved (loc f : Key) (ks : List Key) :
    ∀ mk : MissingKeys,
      ((fun mk : MissingKeys =>
        if mk.locale == loc then
          if ks.isEmpty then mk
          else
            let nf := jsSet mk.files f (jsGetD mk.files f [] ++ ks)
            { mk with files := nf }
        else mk) mk).locale = mk.locale := by
  intro mk
  by_cases h : (mk.locale == loc) = true
  · by_cases he : ks.isEmpty = true <;> simp [h, he]
  · simp [h]

theorem missingFor_addMissing_other (mks : List MissingKeys) (loc loc' f F : Key)
    (ks : List Key) (hne : loc' ≠ loc) :
    missingFor (addMissing mks loc f ks) loc' F = missingFor mks loc' F := by
  unfold addMissing missingFor
  by_cases hany : (mks.any fun mk => mk.locale == loc) = true
  · rw [if_pos hany, find?_map_locale mks _ (addMissing_locale_preserved loc f ks) loc']
    cases hf : mks.find? (fun mk => mk.locale == loc') with
    | none => rfl
    | some mk0 =>
      have hl := List.find?_some hf
      have hle : mk0.locale = loc' := by
        simpa using hl
      have hnl : ¬((mk0.locale == loc) = true) := by
        rw [beq_iff_eq, hle]
        exact hne
      simp only [Option.map]
      rw [if_neg hnl]
  · rw [if_neg hany, List.find?_append]
    cases hf : mks.find? (fun mk => mk.locale == loc') with
    | none =>
      have : (([{ locale := loc, files := if ks.isEmpty then [] else [(f, ks)] }] :
          List MissingKeys).find? (fun mk => mk.locale == loc')) = none := by
        rw [List.find?_eq_none]
        intro x hx
        rw [List.mem_singleton] at hx
        subst hx
        simp only [beq_iff_eq]
        exact fun he => hne he.symm
      rw [this]
      rfl
    | some mk0 => rfl

theorem missingFor_addMissing_self (mks : List MissingKeys) (loc f F : Key)
    (ks : List Key) :
    missingFor (addMissing mks loc f ks) loc F =
      if F = f then missingFor mks loc F ++ ks else missingFor mks loc F := by
  unfold addMissing missingFor
  by_cases hany : (mks.any fun mk => mk.locale == loc) = true
  · rw [if_pos hany, find?_map_locale mks _ (addMissing_locale_preserved loc f ks) loc]
    have hs : (mks.find? fun mk => mk.locale == loc).isSome := by
      rw [List.find?_isSome]
      simpa using (List.any_eq_true.mp hany)
    obtain ⟨mk0, hf⟩ := Option.isSome_iff_exists.mp hs
    have hl := List.find?_some hf
    rw [hf]
    simp only [Option.map]
    rw [if_pos hl]
    by_cases hke : ks.isEmpty = true
    · rw [if_pos hke]
      rw [List.isEmpty_iff] at hke
      subst hke
      by_cases hFf : F = f <;> simp [hFf]
    · rw [if_neg hke]
      simp only
      by_cases hFf : F = f
      · subst hFf
        unfold jsGetD
        rw [jsGet_jsSet_self]
        simp [if_pos rfl]
      · unfold jsGetD
        rw [jsGet_jsSet_ne _ _ _ _ hFf, if_neg hFf]
  · rw [if_neg hany, List.find?_append]
    have hnone : (mks.find? fun mk => mk.locale == loc) = none := by
      rw [List.find?_eq_none]
      intro x hx
      rw [Bool.not_eq_true, List.any_eq_false] at hany
      exact hany x hx
    rw [hnone]
    simp only [Option.none_or, List.find?_cons, beq_self_eq_true, if_true]
    by_cases hke : ks.isEmpty = true
    · rw [List.isEmpty_iff] at hke
      subst hke
      simp only [List.isEmpty_nil, if_true]
      by_cases hFf : F = f <;> simp [hFf, jsGetD, jsGet_nil]
    · simp only [hke, Bool.false_eq_true, if_false]
      by_cases hFf : F = f
      · subst hFf
        simp [jsGetD, jsGet_cons]
      · simp [jsGetD, jsGet_cons, hFf, Ne.symm hFf, jsGet_nil]

theorem missingFor_nil (loc F : Key) : missingFor [] loc F = [] := rfl

/-- Effect of processing one file over the whole locale list. -/
theorem missingFileStep_spec (mainLocale : Key) (mainInfo : LocaleInfo) (f : Key) :
    ∀ (L : List LocaleInfo) (mks : List MissingKeys) (loc F : Key),
    (L.map LocaleInfo.locale).Nodup →
    missingFor (L.foldl
        (missingStep mainLocale f (jsKeys (jsGetD mainInfo.file f []))) mks) loc F =
      match (L.filter (fun li => !(li.locale == mainLocale))).find?
          (fun li => li.locale == loc) with
      | some li =>
        if F = f then
          missingFor mks loc F ++
            missingForFile (jsKeys (jsGetD mainInfo.file f [])) (jsGetD li.file f [])
        else missingFor mks loc F
      | none => missingFor mks loc F := by
  intro L
  induction L with
  | nil => intro mks loc F _; rfl
  | cons li rest ih =>
    intro mks loc F hnd
    rw [List.map_cons, List.nodup_cons] at hnd
    rw [List.foldl_cons, List.filter_cons]
    by_cases hmain : (li.locale == mainLocale) = true
    · have hstep : missingStep mainLocale f (jsKeys (jsGetD mainInfo.file f [])) mks li
          = mks := by
        unfold missingStep
        rw [if_pos hmain]
      rw [hstep, ih mks loc F hnd.2]
      simp only [hmain, Bool.not_true, Bool.false_eq_true, if_false]
    · have hstep : missingStep mainLocale f (jsKeys (jsGetD mainInfo.file f [])) mks li
          = addMissing mks li.locale f
              (missingForFile (jsKeys (jsGetD mainInfo.file f [])) (jsGetD li.file f [])) := by
        unfold missingStep
        rw [if_neg hmain]
      rw [hstep, ih _ loc F hnd.2]
      simp only [hmain, Bool.not_false, if_true]
      by_cases hloc : li.locale = loc
      · subst hloc
        rw [List.find?_cons_of_pos _ (by simp)]
        have hrest : ((rest.filter (fun x => !(x.locale == mainLocale))).find?
            (fun x => x.locale == li.locale)) = none := by
          rw [List.find?_eq_none]
          intro x hx
          have hxr : x ∈ rest := (List.mem_filter.mp hx).1
          simp only [beq_iff_eq]
          exact fun he => hnd.1 (he ▸ List.mem_map_of_mem LocaleInfo.locale hxr)
        rw [hrest, missingFor_addMissing_self]
      · rw [List.find?_cons_of_neg _ (by simpa using hloc)]
        cases hrest : ((rest.filter (fun x => !(x.locale == mainLocale))).find?
            (fun x => x.locale == loc)) with
        | some li2 =>
          rw [missingFor_addMissing_other mks li.locale loc f F _
            (fun he => hloc he.symm)]
        | none =>
          rw [missingFor_addMissing_other mks li.locale loc f F _
            (fun he => hloc he.symm)]

/-- Effect of the outer file fold of `getMissingKeys`. -/
theorem getMissingKeys_fold_spec (localesInfo : List LocaleInfo) (mainLocale : Key)
    (mainInfo : LocaleInfo) :
    ∀ (FS : List Key) (mks : List MissingKeys) (loc F : Key),
    FS.Nodup → (localesInfo.map LocaleInfo.locale).Nodup →
    missingFor (FS.foldl (missingFileStep localesInfo mainLocale mainInfo) mks) loc F =
      match (localesInfo.filter (fun li => !(li.locale == mainLocale))).find?
          (fun li => li.locale == loc) with
      | some li =>
        missingFor mks loc F ++
          (if F ∈ FS then
            missingForFile (jsKeys (jsGetD mainInfo.file F [])) (jsGetD li.file F [])
          else [])
      | none => missingFor mks loc F := by
  intro FS
  induction FS with
  | nil =>
    intro mks loc F _ _
    cases (localesInfo.filter (fun li => !(li.locale == mainLocale))).find?
        (fun li => li.locale == loc) with
    | some li => simp
    | none => rfl
  | cons f FS ih =>
    intro mks loc F hndF hndL
    rw [List.nodup_cons] at hndF
    rw [List.foldl_cons]
    have h1 : missingFileStep localesInfo mainLocale mainInfo mks f =
        localesInfo.foldl
          (missingStep mainLocale f (jsKeys (jsGetD mainInfo.file f []))) mks := rfl
    rw [h1, ih _ loc F hndF.2 hndL]
    rw [missingFileStep_spec mainLocale mainInfo f localesInfo mks loc F hndL]
    cases hfind : (localesInfo.filter (fun li => !(li.locale == mainLocale))).find?
        (fun li => li.locale == loc) with
    | none => rfl
    | some li =>
      simp only
      by_cases hFf : F = f
      · subst hFf
        rw [if_pos rfl, if_pos (List.mem_cons_self _ _), if_neg hndF.1]
        simp
      · rw [if_neg hFf]
        by_cases hFS : F ∈ FS
        · rw [if_pos hFS, if_pos (List.mem_cons_of_mem _ hFS)]
        · rw [if_neg hFS, if_neg (by
            rw [List.mem_cons]
            rintro (h2 | h2)
            · exact hFf h2
            · exact hFS h2)]

theorem find?_filter_locale_self (infos : List LocaleInfo) (mainLocale : Key)
    (li : LocaleInfo) (hnd : (infos.map LocaleInfo.locale).Nodup)
    (hli : li ∈ infos) (hmain : li.locale ≠ mainLocale) :
    (infos.filter (fun x => !(x.locale == mainLocale))).find?
      (fun x => x.locale == li.locale) = some li := by
  induction infos with
  | nil => simp at hli
  | cons x rest ih =>
    rw [List.map_cons, List.nodup_cons] at hnd
    rw [List.filter_cons]
    rcases List.mem_cons.mp hli with rfl | hr
    · rw [if_pos (by simpa using hmain), List.find?_cons_of_pos _ (by simp)]
    · have hne : x.locale ≠ li.locale :=
        fun he => hnd.1 (he ▸ List.mem_map_of_mem LocaleInfo.locale hr)
      by_cases hx : (x.locale == mainLocale) = true
      · simp only [hx, Bool.not_true, Bool.false_eq_true, if_false]
        exact ih hnd.2 hr
      · simp only [hx, Bool.not_false, if_true]
        rw [List.find?_cons_of_neg _ (by simpa using hne)]
        exact ih hnd.2 hr

/-- C8: `getMissingKeys` records an authoritative key as missing for a
non-main locale exactly when that locale's flat-mapping value for the key is
falsy — in particular an intentionally empty-string translation is classified
as missing, indistinguishable from an absent key. -/
theorem getMissingKeys_falsy (localesInfo : List LocaleInfo) (mainLocale : Key)
    (mainInfo : LocaleInfo)
    (hfind : localesInfo.find? (fun li => li.locale == mainLocale) = some mainInfo)
    (hndL : (localesInfo.map LocaleInfo.locale).Nodup)
    (hndF : (jsKeys mainInfo.file).Nodup)
    (li : LocaleInfo) (hli : li ∈ localesInfo) (hmain : li.locale ≠ mainLocale)
    (F : Key) (hF : F ∈ jsKeys mainInfo.file) :
    missingFor (getMissingKeys localesInfo mainLocale) li.locale F =
      missingForFile (jsKeys (jsGetD mainInfo.file F [])) (jsGetD li.file F []) ∧
    (∀ k, k ∈ missingFor (getMissingKeys localesInfo mainLocale) li.locale F ↔
      k ∈ jsKeys (jsGetD mainInfo.file F []) ∧
        jsFalsy (jsGet (jsGetD li.file F []) k) = true) ∧
    jsFalsy (some (JSON.str [])) = true := by
  have hmainEq : missingFor (getMissingKeys localesInfo mainLocale) li.locale F =
      missingForFile (jsKeys (jsGetD mainInfo.file F [])) (jsGetD li.file F []) := by
    unfold getMissingKeys
    rw [hfind]
    rw [getMissingKeys_fold_spec localesInfo mainLocale mainInfo
      (jsKeys mainInfo.file) [] li.locale F hndF hndL]
    rw [find?_filter_locale_self localesInfo mainLocale li hndL hli hmain]
    simp only [missingFor_nil, List.nil_append]
    rw [if_pos hF]
  refine ⟨hmainEq, ?_, rfl⟩
  intro k
  rw [hmainEq]
  unfold missingForFile
  rw [List.mem_filter]

/-- Witness for C8 at a concrete input: locale `de` stores the empty string
for `x` and lacks `y`, so both `x` and `y` are reported missing. -/
theorem getMissingKeys_falsy_witness :
    missingFor (getMissingKeys
      [{ locale := chars "en",
         file := [(chars "f", [(chars "x", JSON.str (chars "X")),
                               (chars "y", JSON.str (chars "Y"))])] },
       { locale := chars "de",
         file := [(chars "f", [(chars "x", JSON.str [])])] }] (chars "en"))
      (chars "de") (chars "f") = [chars "x", chars "y"] :=
  ((getMissingKeys_falsy
    [{ locale := chars "en",
       file := [(chars "f", [(chars "x", JSON.str (chars "X")),
                             (chars "y", JSON.str (chars "Y"))])] },
     { locale := chars "de",
       file := [(chars "f", [(chars "x", JSON.str [])])] }] (chars "en")
    { locale := chars "en",
      file := [(chars "f", [(chars "x", JSON.str (chars "X")),
                            (chars "y", JSON.str (chars "Y"))])] }
    (by decide) (by decide) (by decide)
    { locale := chars "de", file := [(chars "f", [(chars "x", JSON.str [])])] }
    (by decide) (by decide) (chars "f") (by decide)).1).trans (by decide)

/-! ## Claim C4 — deletion propagation -/

theorem delete_fold_keeps_absent (ds : List Key) :
    ∀ (m : List (Key × JSON)) (k : Key), k ∉ jsKeys m →
    k ∉ jsKeys (ds.foldl (fun fr k2 => jsDelete fr k2) m) := by
  induction ds with
  | nil => intro m k hk; exact hk
  | cons d ds ih =>
    intro m k hk
    rw [List.foldl_cons]
    apply ih
    intro hm
    exact hk ((mem_jsKeys_jsDelete m d k).mp hm).1

theorem delete_fold_not_mem (ds : List Key) :
    ∀ (m : List (Key × JSON)) (k : Key), k ∈ ds →
    k ∉ jsKeys (ds.foldl (fun fr k2 => jsDelete fr k2) m) := by
  induction ds with
  | nil => intro m k hk; simp at hk
  | cons d ds ih =>
    intro m k hk
    rw [List.foldl_cons]
    rcases List.mem_cons.mp hk with rfl | hk2
    · apply delete_fold_keeps_absent
      intro hm
      exact ((mem_jsKeys_jsDelete m k k).mp hm).2 rfl
    · exact ih _ k hk2

theorem applyTranslated_keys_sub (b : List (Key × JSON)) :
    ∀ (a : List (Key × JSON)) (k2 : Key),
    k2 ∈ jsKeys (applyTranslated a b) → k2 ∈ jsKeys a ∨ k2 ∈ jsKeys b := by
  induction b with
  | nil => intro a k2 h; exact Or.inl h
  | cons p rest ih =>
    intro a k2 h
    unfold applyTranslated at h
    rw [List.foldl_cons] at h
    have h2 : k2 ∈ jsKeys (applyTranslated (jsSet a p.1 p.2) rest) := h
    rcases ih (jsSet a p.1 p.2) k2 h2 with h3 | h3
    · rcases (mem_jsKeys_jsSet a p.1 k2 p.2).mp h3 with h4 | h4
      · exact Or.inl h4
      · right
        rw [h4]
        exact List.mem_cons_self _ _
    · right
      exact List.mem_cons_of_mem _ h3

theorem filterPayload_keys_sub (main : List (Key × JSON)) (keys : List Key) :
    ∀ k2 ∈ jsKeys (filterPayload main keys), k2 ∈ keys := by
  have go : ∀ (ks : List Key) (acc : List (Key × JSON)) (k2 : Key),
      k2 ∈ jsKeys (ks.foldl (fun acc k =>
        match jsGet main k with
        | some v => jsSet acc k v
        | none => acc) acc) → k2 ∈ jsKeys acc ∨ k2 ∈ ks := by
    intro ks
    induction ks with
    | nil => intro acc k2 h; exact Or.inl h
    | cons kk ks ih =>
      intro acc k2 h
      rw [List.foldl_cons] at h
      cases hg : jsGet main kk with
      | some v =>
        rw [hg] at h
        rcases ih (jsSet acc kk v) k2 h with h2 | h2
        · rcases (mem_jsKeys_jsSet acc kk k2 v).mp h2 with h3 | h3
          · exact Or.inl h3
          · right
            rw [h3]
            exact List.mem_cons_self _ _
        · exact Or.inr (List.mem_cons_of_mem _ h2)
      | none =>
        rw [hg] at h
        rcases ih acc k2 h with h2 | h2
        · exact Or.inl h2
        · exact Or.inr (List.mem_cons_of_mem _ h2)
  intro k2 h
  unfold filterPayload at h
  rcases go keys [] k2 h with h2 | h2
  · simp [jsKeys] at h2
  · exact h2

theorem chunkArrayGo_sub {α : Type} :
    ∀ (fuel : Nat) (l : List α) (b : Nat) (c : List α),
    c ∈ chunkArrayGo fuel l b → ∀ x ∈ c, x ∈ l := by
  intro fuel
  induction fuel with
  | zero => intro l b c hc; simp [chunkArrayGo] at hc
  | succ fuel ih =>
    intro l b c hc
    cases l with
    | nil => simp [chunkArrayGo] at hc
    | cons a arr =>
      rw [chunkArrayGo] at hc
      rcases List.mem_cons.mp hc with rfl | hc2
      · intro x hx
        exact List.take_subset _ _ hx
      · intro x hx
        exact List.drop_subset _ _ (ih _ b c hc2 x hx)

theorem chunkArray_sub {α : Type} (arr : List α) (b : Nat) (c : List α)
    (hc : c ∈ chunkArray arr b) : ∀ x ∈ c, x ∈ arr := by
  unfold chunkArray at hc
  by_cases hb : b = 0
  · rw [if_pos hb] at hc
    simp at hc
  · rw [if_neg hb] at hc
    exact chunkArrayGo_sub _ _ _ _ hc

theorem updateFirst_mem (p : LocaleInfo → Bool) (f : LocaleInfo → LocaleInfo) :
    ∀ (l : List LocaleInfo) (x : LocaleInfo), x ∈ updateFirst p f l →
    x ∈ l ∨ ∃ li, li ∈ l ∧ x = f li := by
  intro l
  induction l with
  | nil => intro x hx; simp [updateFirst] at hx
  | cons li rest ih =>
    intro x hx
    unfold updateFirst at hx
    by_cases hp : p li = true
    · rw [if_pos hp] at hx
      rcases List.mem_cons.mp hx with rfl | hx2
      · exact Or.inr ⟨li, List.mem_cons_self _ _, rfl⟩
      · exact Or.inl (List.mem_cons_of_mem _ hx2)
    · rw [if_neg hp] at hx
      rcases List.mem_cons.mp hx with rfl | hx2
      · exact Or.inl (List.mem_cons_self _ _)
      · rcases ih x hx2 with h2 | ⟨li2, hli2, rfl⟩
        · exact Or.inl (List.mem_cons_of_mem _ h2)
        · exact Or.inr ⟨li2, List.mem_cons_of_mem _ hli2, rfl⟩

theorem applyTransResult_noKey (F k fileName : Key) (result : TransResult) :
    ∀ (infos : List LocaleInfo),
    (∀ li ∈ infos, k ∉ jsKeys (jsGetD li.file F [])) →
    (∀ pair ∈ result, fileName = F → k ∉ jsKeys pair.2) →
    ∀ li2 ∈ applyTransResult result fileName infos, k ∉ jsKeys (jsGetD li2.file F []) := by
  induction result with
  | nil => intro infos hP _ li2 h2; exact hP li2 h2
  | cons pair rest ih =>
    intro infos hP hR li2 h2
    unfold applyTransResult at h2
    rw [List.foldl_cons] at h2
    have h2b : li2 ∈ applyTransResult rest fileName
        (updateFirst (fun li => li.locale == pair.1)
          (fun li =>
            let nf := jsSet li.file fileName
              (applyTranslated (jsGetD li.file fileName []) pair.2)
            { li with file := nf }) infos) := h2
    refine ih _ ?_ (fun p hp => hR p (List.mem_cons_of_mem _ hp)) li2 h2b
    intro li3 h3
    rcases updateFirst_mem _ _ infos li3 h3 with h4 | ⟨li4, hli4, rfl⟩
    · exact hP li3 h4
    · simp only
      by_cases hFf : fileName = F
      · subst hFf
        unfold jsGetD
        rw [jsGet_jsSet_self]
        simp only [Option.getD_some]
        intro hmem
        rcases applyTranslated_keys_sub pair.2 (jsGetD li4.file fileName []) k hmem with h5 | h5
        · exact hP li4 hli4 h5
        · exact hR pair (List.mem_cons_self _ _) rfl h5
      · unfold jsGetD
        rw [jsGet_jsSet_ne _ _ _ _ (fun he => hFf he.symm)]
        exact hP li4 hli4

theorem reorder_keys_sub (t : List (Key × JSON)) (main : List (Key × JSON)) (k : Key)
    (h : k ∈ jsKeys (reorderLocaleFile main t)) : k ∈ jsKeys main := by
  have go : ∀ (m acc : List (Key × JSON)),
      k ∈ jsKeys (m.foldl (reorderStep t) acc) → k ∈ jsKeys acc ∨ k ∈ jsKeys m := by
    intro m
    induction m with
    | nil => intro acc h2; exact Or.inl h2
    | cons kv m ih =>
      intro acc h2
      rw [List.foldl_cons] at h2
      cases hg : jsGet t kv.1 with
      | some v =>
        have hstep : reorderStep t acc kv = jsSet acc kv.1 v := by
          unfold reorderStep
          rw [hg]
        rw [hstep] at h2
        rcases ih _ h2 with h3 | h3
        · rcases (mem_jsKeys_jsSet acc kv.1 k v).mp h3 with h4 | h4
          · exact Or.inl h4
          · right
            rw [h4]
            exact List.mem_cons_self _ _
        · exact Or.inr (List.mem_cons_of_mem _ h3)
      | none =>
        have hstep : reorderStep t acc kv = acc := by
          unfold reorderStep
          rw [hg]
        rw [hstep] at h2
        rcases ih _ h2 with h3 | h3
        · exact Or.inl h3
        · exact Or.inr (List.mem_cons_of_mem _ h3)
  unfold reorderLocaleFile at h
  rcases go main [] h with h2 | h2
  · simp [jsKeys] at h2
  · exact h2

theorem updateLocaleFile_fst (tf : TranslateFn) (mainLocale fileName : Key)
    (mainNow : LocaleInfo) (chunk : List Key) (infos : List LocaleInfo) :
    (updateLocaleFile tf mainLocale fileName mainNow chunk infos).1 =
      if chunk.length > 0 then
        applyTransResult
          (tf ((infos.map LocaleInfo.locale).filter (fun c => !(c == mainLocale)))
            (filterPayload (jsGetD mainNow.file fileName []) chunk))
          fileName infos
      else infos := rfl

theorem updateLocaleFile_snd (tf : TranslateFn) (mainLocale fileName : Key)
    (mainNow : LocaleInfo) (chunk : List Key) (infos : List LocaleInfo) :
    (updateLocaleFile tf mainLocale fileName mainNow chunk infos).2 =
      (((updateLocaleFile tf mainLocale fileName mainNow chunk infos).1).filter
        (fun li => !(li.locale == mainLocale))).map (fun li =>
        { locale := li.locale, fileName := fileName,
          content := reorderLocaleFile (jsGetD mainNow.file fileName [])
            (jsGetD li.file fileName []) }) := rfl

theorem updateLocaleFile_noKey (tf : TranslateFn) (mainLocale fileName F k : Key)
    (mainNow : LocaleInfo) (chunk : List Key) (infos : List LocaleInfo)
    (htrans : ∀ locs payload pair, pair ∈ tf locs payload →
      ∀ k2 ∈ jsKeys pair.2, k2 ∈ jsKeys payload)
    (hchunk : fileName = F → k ∉ chunk)
    (hP : ∀ li ∈ infos, k ∉ jsKeys (jsGetD li.file F [])) :
    ∀ li2 ∈ (updateLocaleFile tf mainLocale fileName mainNow chunk infos).1,
      k ∉ jsKeys (jsGetD li2.file F []) := by
  rw [updateLocaleFile_fst]
  by_cases hc : chunk.length > 0
  · rw [if_pos hc]
    apply applyTransResult_noKey F k fileName _ infos hP
    intro pair hpair hFf hk2
    have hpay := htrans _ _ pair hpair k hk2
    have := filterPayload_keys_sub (jsGetD mainNow.file fileName []) chunk k hpay
    exact hchunk hFf this
  · rw [if_neg hc]
    exact hP

theorem updateLocaleFile_writes (tf : TranslateFn) (mainLocale fileName F k : Key)
    (mainNow : LocaleInfo) (chunk : List Key) (infos : List LocaleInfo)
    (hMain : fileName = F → k ∉ jsKeys (jsGetD mainNow.file fileName [])) :
    ∀ w ∈ (updateLocaleFile tf mainLocale fileName mainNow chunk infos).2,
      w.fileName = fileName ∧ (w.fileName = F → k ∉ jsKeys w.content) := by
  rw [updateLocaleFile_snd]
  intro w hw
  simp only [List.mem_map] at hw
  obtain ⟨li, _, rfl⟩ := hw
  refine ⟨rfl, ?_⟩
  intro hFf hk
  exact hMain hFf (reorder_keys_sub _ _ k hk)

theorem updateLocaleFile_writes_name (tf : TranslateFn) (mainLocale fileName : Key)
    (mainNow : LocaleInfo) (chunk : List Key) (infos : List LocaleInfo) :
    ∀ w ∈ (updateLocaleFile tf mainLocale fileName mainNow chunk infos).2,
      w.fileName = fileName := by
  rw [updateLocaleFile_snd]
  intro w hw
  simp only [List.mem_map] at hw
  obtain ⟨li, _, rfl⟩ := hw
  rfl

theorem chunkFold_inv (tf : TranslateFn) (mainLocale F fileName k : Key)
    (mainLocaleInfo : LocaleInfo)
    (htrans : ∀ locs payload pair, pair ∈ tf locs payload →
      ∀ k2 ∈ jsKeys pair.2, k2 ∈ jsKeys payload)
    (hMainArg : k ∉ jsKeys (jsGetD mainLocaleInfo.file F []))
    (chunks : List (List Key)) :
    ∀ st : List LocaleInfo × List Write,
    (∀ c ∈ chunks, fileName = F → k ∉ c) →
    (∀ li ∈ st.1, k ∉ jsKeys (jsGetD li.file F [])) →
    (∀ w ∈ st.2, w.fileName = F → k ∉ jsKeys w.content) →
    (∀ li ∈ (chunks.foldl (chunkStep tf mainLocale mainLocaleInfo fileName) st).1,
      k ∉ jsKeys (jsGetD li.file F [])) ∧
    (∀ w ∈ (chunks.foldl (chunkStep tf mainLocale mainLocaleInfo fileName) st).2,
      w.fileName = F → k ∉ jsKeys w.content) := by
  induction chunks with
  | nil => intro st _ hP hW; exact ⟨hP, hW⟩
  | cons c cs ih =>
    intro st hchunks hP hW
    rw [List.foldl_cons]
    have hMainNow : k ∉ jsKeys (jsGetD
        (((st.1.find? (fun li => li.locale == mainLocale)).getD mainLocaleInfo)).file F []) := by
      cases hf : st.1.find? (fun li => li.locale == mainLocale) with
      | none => simpa using hMainArg
      | some m0 =>
        simp only [Option.getD_some]
        exact hP m0 (List.mem_of_find?_eq_some hf)
    refine ih _ (fun c2 hc2 => hchunks c2 (List.mem_cons_of_mem _ hc2)) ?_ ?_
    · intro li hli
      unfold chunkStep at hli
      exact updateLocaleFile_noKey tf mainLocale fileName F k _ c st.1 htrans
        (hchunks c (List.mem_cons_self _ _)) hP li hli
    · intro w hw
      unfold chunkStep at hw
      simp only [List.mem_append] at hw
      rcases hw with hw | hw
      · exact hW w hw
      · have := updateLocaleFile_writes tf mainLocale fileName F k _ c st.1
          (fun hFf => by rw [hFf]; exact hMainNow) w hw
        exact this.2

theorem updateFilesStep_other (tf : TranslateFn) (mainLocale F k G : Key)
    (mainLocaleInfo : LocaleInfo) (keysForFileName deletedFileKeys : List (Key × List Key))
    (htrans : ∀ locs payload pair, pair ∈ tf locs payload →
      ∀ k2 ∈ jsKeys pair.2, k2 ∈ jsKeys payload)
    (hMainArg : k ∉ jsKeys (jsGetD mainLocaleInfo.file F []))
    (hne : G ≠ F) (st : List LocaleInfo × List Write)
    (hP : ∀ li ∈ st.1, k ∉ jsKeys (jsGetD li.file F []))
    (hW : ∀ w ∈ st.2, w.fileName = F → k ∉ jsKeys w.content) :
    (∀ li ∈ (updateFilesStep tf mainLocale mainLocaleInfo keysForFileName deletedFileKeys st G).1,
      k ∉ jsKeys (jsGetD li.file F [])) ∧
    (∀ w ∈ (updateFilesStep tf mainLocale mainLocaleInfo keysForFileName deletedFileKeys st G).2,
      w.fileName = F → k ∉ jsKeys w.content) := by
  unfold updateFilesStep
  cases hg : jsGet keysForFileName G with
  | none => exact ⟨hP, hW⟩
  | some keys =>
    simp only
    have hst1P : ∀ li ∈ (if (jsGetD deletedFileKeys G []).length > 0 then
        (applyDeletions st.1 G (jsGetD deletedFileKeys G []), st.2) else st).1,
        k ∉ jsKeys (jsGetD li.file F []) := by
      by_cases hd : (jsGetD deletedFileKeys G []).length > 0
      · rw [if_pos hd]
        intro li hli
        unfold applyDeletions at hli
        simp only [List.mem_map] at hli
        obtain ⟨li0, hli0, rfl⟩ := hli
        simp only
        unfold jsGetD
        rw [jsGet_jsSet_ne _ _ _ _ (fun he => hne he.symm)]
        exact hP li0 hli0
      · rw [if_neg hd]
        exact hP
    have hst1W : ∀ w ∈ (if (jsGetD deletedFileKeys G []).length > 0 then
        (applyDeletions st.1 G (jsGetD deletedFileKeys G []), st.2) else st).2,
        w.fileName = F → k ∉ jsKeys w.content := by
      by_cases hd : (jsGetD deletedFileKeys G []).length > 0
      · rw [if_pos hd]
        exact hW
      · rw [if_neg hd]
        exact hW
    exact chunkFold_inv tf mainLocale F G k mainLocaleInfo htrans hMainArg
      (chunkArray keys BUCKET_SIZE) _ (fun c _ hGF => absurd hGF hne) hst1P hst1W

theorem updateFilesStep_self (tf : TranslateFn) (mainLocale F k : Key)
    (mainLocaleInfo : LocaleInfo) (keysForFileName deletedFileKeys : List (Key × List Key))
    (keysF : List Key)
    (htrans : ∀ locs payload pair, pair ∈ tf locs payload →
      ∀ k2 ∈ jsKeys pair.2, k2 ∈ jsKeys payload)
    (hMainArg : k ∉ jsKeys (jsGetD mainLocaleInfo.file F []))
    (hkeysF : jsGet keysForFileName F = some keysF)
    (hdel : k ∈ jsGetD deletedFileKeys F [])
    (hknot : k ∉ keysF) (st : List LocaleInfo × List Write)
    (hW : ∀ w ∈ st.2, w.fileName = F → k ∉ jsKeys w.content) :
    (∀ li ∈ (updateFilesStep tf mainLocale mainLocaleInfo keysForFileName deletedFileKeys st F).1,
      k ∉ jsKeys (jsGetD li.file F [])) ∧
    (∀ w ∈ (updateFilesStep tf mainLocale mainLocaleInfo keysForFileName deletedFileKeys st F).2,
      w.fileName = F → k ∉ jsKeys w.content) := by
  unfold updateFilesStep
  rw [hkeysF]
  simp only
  have hlen : (jsGetD deletedFileKeys F []).length > 0 :=
    List.length_pos.mpr (List.ne_nil_of_mem hdel)
  rw [if_pos hlen]
  refine chunkFold_inv tf mainLocale F F k mainLocaleInfo htrans hMainArg
    (chunkArray keysF BUCKET_SIZE) _
    (fun c hc _ hkc => hknot (chunkArray_sub keysF BUCKET_SIZE c hc k hkc)) ?_ hW
  intro li hli
  unfold applyDeletions at hli
  simp only [List.mem_map] at hli
  obtain ⟨li0, _, rfl⟩ := hli
  simp only
  unfold jsGetD
  rw [jsGet_jsSet_self]
  simp only [Option.getD_some]
  exact delete_fold_not_mem _ _ k hdel

theorem chunkFold_writes_from (tf : TranslateFn) (mainLocale G : Key)
    (mainLocaleInfo : LocaleInfo) (chunks : List (List Key)) (P : Write → Prop)
    (hnew : ∀ w : Write, w.fileName = G → P w) :
    ∀ st : List LocaleInfo × List Write, (∀ w ∈ st.2, P w) →
    ∀ w ∈ (chunks.foldl (chunkStep tf mainLocale mainLocaleInfo G) st).2, P w := by
  induction chunks with
  | nil => intro st h; exact h
  | cons c cs ih =>
    intro st h
    rw [List.foldl_cons]
    apply ih
    intro w hw
    unfold chunkStep at hw
    simp only [List.mem_append] at hw
    rcases hw with hw | hw
    · exact h w hw
    · exact hnew w (updateLocaleFile_writes_name tf mainLocale G _ c st.1 w hw)

theorem updateFilesStep_writes_ne (tf : TranslateFn) (mainLocale F G : Key)
    (mainLocaleInfo : LocaleInfo) (keysForFileName deletedFileKeys : List (Key × List Key))
    (hne : G ≠ F) (st : List LocaleInfo × List Write)
    (hW : ∀ w ∈ st.2, w.fileName ≠ F) :
    ∀ w ∈ (updateFilesStep tf mainLocale mainLocaleInfo keysForFileName deletedFileKeys st G).2,
      w.fileName ≠ F := by
  unfold updateFilesStep
  cases hg : jsGet keysForFileName G with
  | none => exact hW
  | some keys =>
    simp only
    refine chunkFold_writes_from tf mainLocale G mainLocaleInfo
      (chunkArray keys BUCKET_SIZE) (fun w => w.fileName ≠ F)
      (fun w hwG hwF => hne (hwG.symm.trans hwF)) _ ?_
    by_cases hd : (jsGetD deletedFileKeys G []).length > 0
    · rw [if_pos hd]
      exact hW
    · rw [if_neg hd]
      exact hW

theorem filesFold_writes_ne (tf : TranslateFn) (mainLocale F : Key)
    (mainLocaleInfo : LocaleInfo) (keysForFileName deletedFileKeys : List (Key × List Key))
    (pre : List Key) :
    ∀ st : List LocaleInfo × List Write, (∀ G ∈ pre, G ≠ F) →
    (∀ w ∈ st.2, w.fileName ≠ F) →
    ∀ w ∈ (pre.foldl
        (updateFilesStep tf mainLocale mainLocaleInfo keysForFileName deletedFileKeys) st).2,
      w.fileName ≠ F := by
  induction pre with
  | nil => intro st _ h; exact h
  | cons G pre ih =>
    intro st hpre h
    rw [List.foldl_cons]
    exact ih _ (fun G2 hG2 => hpre G2 (List.mem_cons_of_mem _ hG2))
      (updateFilesStep_writes_ne tf mainLocale F G mainLocaleInfo
        keysForFileName deletedFileKeys (hpre G (List.mem_cons_self _ _)) st h)

theorem filesFold_preserve (tf : TranslateFn) (mainLocale F k : Key)
    (mainLocaleInfo : LocaleInfo) (keysForFileName deletedFileKeys : List (Key × List Key))
    (htrans : ∀ locs payload pair, pair ∈ tf locs payload →
      ∀ k2 ∈ jsKeys pair.2, k2 ∈ jsKeys payload)
    (hMainArg : k ∉ jsKeys (jsGetD mainLocaleInfo.file F []))
    (post : List Key) :
    ∀ st : List LocaleInfo × List Write, (∀ G ∈ post, G ≠ F) →
    (∀ li ∈ st.1, k ∉ jsKeys (jsGetD li.file F [])) →
    (∀ w ∈ st.2, w.fileName = F → k ∉ jsKeys w.content) →
    (∀ li ∈ (post.foldl
        (updateFilesStep tf mainLocale mainLocaleInfo keysForFileName deletedFileKeys) st).1,
      k ∉ jsKeys (jsGetD li.file F [])) ∧
    (∀ w ∈ (post.foldl
        (updateFilesStep tf mainLocale mainLocaleInfo keysForFileName deletedFileKeys) st).2,
      w.fileName = F → k ∉ jsKeys w.content) := by
  induction post with
  | nil => intro st _ hP hW; exact ⟨hP, hW⟩
  | cons G post ih =>
    intro st hpost hP hW
    rw [List.foldl_cons]
    have hstep := updateFilesStep_other tf mainLocale F k G mainLocaleInfo
      keysForFileName deletedFileKeys htrans hMainArg (hpost G (List.mem_cons_self _ _)) st hP hW
    exact ih _ (fun G2 hG2 => hpost G2 (List.mem_cons_of_mem _ hG2)) hstep.1 hstep.2

/-- C4 as amended: assume the run's update pass executes (some file has a
nonempty key list) and that `F` has a `keysForFileName` entry.  Then for
every key `k` slated for deletion for `F` that is not among `F`'s keys to
translate (and, being deleted, is absent from the authoritative current
file), one call of `updateAllLocaleFiles` removes `k` from every locale's
in-memory flat mapping for `F`, and every file written for `F` during the
pass — there is one only when `F`'s key list is nonempty — lacks `k`.  The
backend is assumed to return only keys it was asked to translate. -/
theorem updateAllLocaleFiles_deletion (tf : TranslateFn) (mainLocale F k : Key)
    (mainLocaleInfo : LocaleInfo) (keysForFileName deletedFileKeys : List (Key × List Key))
    (localesInfo : List LocaleInfo) (keysF : List Key)
    (htrans : ∀ locs payload pair, pair ∈ tf locs payload →
      ∀ k2 ∈ jsKeys pair.2, k2 ∈ jsKeys payload)
    (htotal : totalKeys (jsKeys mainLocaleInfo.file) keysForFileName > 0)
    (hndF : (jsKeys mainLocaleInfo.file).Nodup)
    (hF : F ∈ jsKeys mainLocaleInfo.file)
    (hMainArg : k ∉ jsKeys (jsGetD mainLocaleInfo.file F []))
    (hkeysF : jsGet keysForFileName F = some keysF)
    (hdel : k ∈ jsGetD deletedFileKeys F [])
    (hknot : k ∉ keysF) :
    (∀ li ∈ (updateAllLocaleFiles tf mainLocale mainLocaleInfo keysForFileName
        localesInfo deletedFileKeys).1,
      k ∉ jsKeys (jsGetD li.file F [])) ∧
    (∀ w ∈ (updateAllLocaleFiles tf mainLocale mainLocaleInfo keysForFileName
        localesInfo deletedFileKeys).2,
      w.fileName = F → k ∉ jsKeys w.content) := by
  unfold updateAllLocaleFiles
  rw [if_pos htotal]
  obtain ⟨pre, post, hsplit⟩ := List.append_of_mem hF
  have hnd2 := hndF
  rw [hsplit] at hnd2
  rw [List.nodup_append] at hnd2
  have hpre : ∀ G ∈ pre, G ≠ F := by
    intro G hG hGF
    exact hnd2.2.2 hG (hGF ▸ List.mem_cons_self F post)
  have hpost : F ∉ post := by
    have := hnd2.2.1
    rw [List.nodup_cons] at this
    exact this.1
  rw [hsplit, List.foldl_append, List.foldl_cons]
  have hWpre : ∀ w ∈ (pre.foldl
      (updateFilesStep tf mainLocale mainLocaleInfo keysForFileName deletedFileKeys)
      (localesInfo, [])).2, w.fileName ≠ F :=
    filesFold_writes_ne tf mainLocale F mainLocaleInfo keysForFileName deletedFileKeys
      pre (localesInfo, []) hpre (by intro w hw; simp at hw)
  have hstepF := updateFilesStep_self tf mainLocale F k mainLocaleInfo
    keysForFileName deletedFileKeys keysF htrans hMainArg hkeysF hdel hknot _
    (fun w hw hwF => absurd hwF (hWpre w hw))
  exact filesFold_preserve tf mainLocale F k mainLocaleInfo keysForFileName
    deletedFileKeys htrans hMainArg post _ (fun G hG hGF => hpost (hGF ▸ hG))
    hstepF.1 hstepF.2

/-- C4 counterexample.  Main locale `en` has files `f` (key `a`) and `g`
(key `p`); locale `de` additionally holds the stale key `x` in `f`, and `x`
is slated for deletion in `f`.  First conjunct: when no file has keys to
translate (`keysForFileName = {f: []}`, so no translation batch call occurs
anywhere), `updateAllLocaleFiles` returns its input unchanged and writes
nothing — `x` is not removed from `de`'s in-memory mapping, contradicting
the claim.  Second and third conjuncts: when another file `g` does have a
key (so the pass runs and the deletion for `f` is applied in memory), no
write for `f` is ever performed because `f`'s own key list is empty, so a
disk previously holding `x` for `de`/`f` still holds it after applying every
write of the run — the on-disk representation keeps the deleted key. -/
theorem updateAllLocaleFiles_deletion_cex :
    (updateAllLocaleFiles (fun _ payload => [(chars "de", payload)]) (chars "en")
        ⟨chars "en", [(chars "f", [(chars "a", JSON.str (chars "A"))]),
                      (chars "g", [(chars "p", JSON.str (chars "P"))])]⟩
        [(chars "f", [])]
        [⟨chars "en", [(chars "f", [(chars "a", JSON.str (chars "A"))]),
                       (chars "g", [(chars "p", JSON.str (chars "P"))])]⟩,
         ⟨chars "de", [(chars "f", [(chars "a", JSON.str (chars "A1")),
                                    (chars "x", JSON.str (chars "X1"))]),
                       (chars "g", [(chars "p", JSON.str (chars "P1"))])]⟩]
        [(chars "f", [chars "x"])] =
      ([⟨chars "en", [(chars "f", [(chars "a", JSON.str (chars "A"))]),
                      (chars "g", [(chars "p", JSON.str (chars "P"))])]⟩,
        ⟨chars "de", [(chars "f", [(chars "a", JSON.str (chars "A1")),
                                   (chars "x", JSON.str (chars "X1"))]),
                      (chars "g", [(chars "p", JSON.str (chars "P1"))])]⟩], [])) ∧
    ((updateAllLocaleFiles (fun _ payload => [(chars "de", payload)]) (chars "en")
        ⟨chars "en", [(chars "f", [(chars "a", JSON.str (chars "A"))]),
                      (chars "g", [(chars "p", JSON.str (chars "P"))])]⟩
        [(chars "f", []), (chars "g", [chars "p"])]
        [⟨chars "en", [(chars "f", [(chars "a", JSON.str (chars "A"))]),
                       (chars "g", [(chars "p", JSON.str (chars "P"))])]⟩,
         ⟨chars "de", [(chars "f", [(chars "a", JSON.str (chars "A1")),
                                    (chars "x", JSON.str (chars "X1"))]),
                       (chars "g", [(chars "p", JSON.str (chars "P1"))])]⟩]
        [(chars "f", [chars "x"])]).2.filter (fun w => w.fileName == chars "f") = []) ∧
    chars "x" ∈ jsKeys (jsGetD (jsGetD
      (applyWrites
        [(chars "de", [(chars "f", [(chars "a", JSON.str (chars "A1")),
                                    (chars "x", JSON.str (chars "X1"))])])]
        (updateAllLocaleFiles (fun _ payload => [(chars "de", payload)]) (chars "en")
          ⟨chars "en", [(chars "f", [(chars "a", JSON.str (chars "A"))]),
                        (chars "g", [(chars "p", JSON.str (chars "P"))])]⟩
          [(chars "f", []), (chars "g", [chars "p"])]
          [⟨chars "en", [(chars "f", [(chars "a", JSON.str (chars "A"))]),
                         (chars "g", [(chars "p", JSON.str (chars "P"))])]⟩,
           ⟨chars "de", [(chars "f", [(chars "a", JSON.str (chars "A1")),
                                      (chars "x", JSON.str (chars "X1"))]),
                         (chars "g", [(chars "p", JSON.str (chars "P1"))])]⟩]
          [(chars "f", [chars "x"])]).2)
      (chars "de") []) (chars "f") []) := by
  refine ⟨?_, ?_, ?_⟩ <;> decide

/-- Witness for the amended C4 theorem at a concrete run: `en` is the main
locale with files `f` and `g`; `x` is deleted from `f` while `f`'s key list
is empty and `g` carries one key, so the pass executes. -/
theorem updateAllLocaleFiles_deletion_witness :
    (∀ li ∈ (updateAllLocaleFiles (fun _ payload => [(chars "de", payload)]) (chars "en")
        ⟨chars "en", [(chars "f", [(chars "a", JSON.str (chars "A"))]),
                      (chars "g", [(chars "p", JSON.str (chars "P"))])]⟩
        [(chars "f", []), (chars "g", [chars "p"])]
        [⟨chars "en", [(chars "f", [(chars "a", JSON.str (chars "A"))]),
                       (chars "g", [(chars "p", JSON.str (chars "P"))])]⟩,
         ⟨chars "de", [(chars "f", [(chars "a", JSON.str (chars "A1")),
                                    (chars "x", JSON.str (chars "X1"))]),
                       (chars "g", [(chars "p", JSON.str (chars "P1"))])]⟩]
        [(chars "f", [chars "x"])]).1,
      chars "x" ∉ jsKeys (jsGetD li.file (chars "f") [])) ∧
    (∀ w ∈ (updateAllLocaleFiles (fun _ payload => [(chars "de", payload)]) (chars "en")
        ⟨chars "en", [(chars "f", [(chars "a", JSON.str (chars "A"))]),
                      (chars "g", [(chars "p", JSON.str (chars "P"))])]⟩
        [(chars "f", []), (chars "g", [chars "p"])]
        [⟨chars "en", [(chars "f", [(chars "a", JSON.str (chars "A"))]),
                       (chars "g", [(chars "p", JSON.str (chars "P"))])]⟩,
         ⟨chars "de", [(chars "f", [(chars "a", JSON.str (chars "A1")),
                                    (chars "x", JSON.str (chars "X1"))]),
                       (chars "g", [(chars "p", JSON.str (chars "P1"))])]⟩]
        [(chars "f", [chars "x"])]).2,
      w.fileName = chars "f" → chars "x" ∉ jsKeys w.content) :=
  updateAllLocaleFiles_deletion (fun _ payload => [(chars "de", payload)])
    (chars "en") (chars "f") (chars "x")
    ⟨chars "en", [(chars "f", [(chars "a", JSON.str (chars "A"))]),
                  (chars "g", [(chars "p", JSON.str (chars "P"))])]⟩
    [(chars "f", []), (chars "g", [chars "p"])]
    [(chars "f", [chars "x"])]
    [⟨chars "en", [(chars "f", [(chars "a", JSON.str (chars "A"))]),
                   (chars "g", [(chars "p", JSON.str (chars "P"))])]⟩,
     ⟨chars "de", [(chars "f", [(chars "a", JSON.str (chars "A1")),
                                (chars "x", JSON.str (chars "X1"))]),
                   (chars "g", [(chars "p", JSON.str (chars "P1"))])]⟩]
    []
    (fun locs payload pair hp k2 hk2 => by
      simp only [List.mem_singleton] at hp
      subst hp
      exact hk2)
    (by decide) (by decide) (by decide) (by decide) (by decide) (by decide) (by decide)

/-! ## Claim C10 — empty backend reply -/

/-- C10: an empty backend reply makes `translateJSON` return the empty
mapping (and merging an empty mapping modifies no locale); a backend error is
fatal, and a non-empty reply is fatal exactly when it fails to parse. -/
theorem translateJSON_empty_reply :
    (∀ parse : Key → Option TransResult, translateJSON (.ok []) parse = .ok []) ∧
    (∀ (fileName : Key) (localesInfo : List LocaleInfo),
      applyTransResult [] fileName localesInfo = localesInfo) ∧
    (∀ (parse : Key → Option TransResult) (msg : Key), msg ≠ [] → parse msg = none →
      translateJSON (.ok msg) parse = .error ()) ∧
    (∀ (parse : Key → Option TransResult) (msg : Key) (r : TransResult), msg ≠ [] →
      parse msg = some r → translateJSON (.ok msg) parse = .ok r) ∧
    (∀ parse : Key → Option TransResult, translateJSON (.error ()) parse = .error ()) := by
  refine ⟨fun parse => rfl, fun fileName localesInfo => rfl, ?_, ?_, fun parse => rfl⟩
  · intro parse msg hne hp
    simp [translateJSON, hp, List.isEmpty_iff, hne]
  · intro parse msg r hne hp
    simp [translateJSON, hp, List.isEmpty_iff, hne]

/-- Witness for C10 at a concrete input: the reply `"x"` with a parser that
rejects it is fatal, while the empty reply returns the empty mapping. -/
theorem translateJSON_empty_reply_witness :
    translateJSON (.ok (chars "x")) (fun _ => none) = .error () ∧
    translateJSON (.ok []) (fun _ => none) = .ok [] :=
  ⟨translateJSON_empty_reply.2.2.1 (fun _ => none) (chars "x") (by decide) rfl,
   translateJSON_empty_reply.1 (fun _ => none)⟩

/-! ## Round-trip machinery I: splitting and joining

Lemmas about `splitDot`, `splitEsc`, `joinSep`, `escapeKey` and
`unescapeKey`, leading to `unescapeKey (escapeKey k) = k` for keys without
a `'~'` and to the decoding of flat keys. -/

theorem splitDot_cons_ne (c : Char) (rest : Key) (h : c ≠ '.') :
    splitDot (c :: rest) = match splitDot rest with
      | [] => [[c]]
      | p :: ps => (c :: p) :: ps := by
  rw [splitDot.eq_def]
  split
  next heq => simp at heq
  next r heq =>
    rw [List.cons.injEq] at heq
    exact absurd heq.1 h
  next c2 r heq =>
    rw [List.cons.injEq] at heq
    rw [heq.1, heq.2]

theorem splitEsc_cons_ne (c : Char) (rest : Key) (h : c ≠ '~') :
    splitEsc (c :: rest) = match splitEsc rest with
      | [] => [[c]]
      | p :: ps => (c :: p) :: ps := by
  rw [splitEsc.eq_def]
  split
  next heq => simp at heq
  next r heq =>
    rw [List.cons.injEq] at heq
    exact absurd heq.1 h
  next c2 r heq =>
    rw [List.cons.injEq] at heq
    rw [heq.1, heq.2]

theorem splitDot_ne_nil (k : Key) : splitDot k ≠ [] := by
  induction k with
  | nil => simp [splitDot]
  | cons c rest ih =>
    by_cases h : c = '.'
    · subst h
      simp [splitDot]
    · rw [splitDot_cons_ne c rest h]
      cases hs : splitDot rest with
      | nil => simp
      | cons p ps => simp

theorem splitEsc_ne_nil (k : Key) (h : ∀ c ∈ k, c ≠ '~') : splitEsc k ≠ [] := by
  induction k with
  | nil => simp [splitEsc]
  | cons c rest ih =>
    rw [splitEsc_cons_ne c rest (h c (List.mem_cons_self _ _))]
    cases hs : splitEsc rest with
    | nil => simp
    | cons p ps => simp

theorem splitDot_no_dot (k : Key) (h : ∀ c ∈ k, c ≠ '.') : splitDot k = [k] := by
  induction k with
  | nil => rfl
  | cons c rest ih =>
    rw [splitDot_cons_ne c rest (h c (List.mem_cons_self _ _)),
      ih (fun c2 hc2 => h c2 (List.mem_cons_of_mem _ hc2))]

theorem splitEsc_no_tilde (k : Key) (h : ∀ c ∈ k, c ≠ '~') : splitEsc k = [k] := by
  induction k with
  | nil => rfl
  | cons c rest ih =>
    rw [splitEsc_cons_ne c rest (h c (List.mem_cons_self _ _)),
      ih (fun c2 hc2 => h c2 (List.mem_cons_of_mem _ hc2))]

theorem splitDot_mem_subset (k : Key) : ∀ p ∈ splitDot k, ∀ c ∈ p, c ∈ k := by
  induction k with
  | nil =>
    intro p hp c hc
    simp [splitDot] at hp
    subst hp
    simp at hc
  | cons c0 rest ih =>
    by_cases h : c0 = '.'
    · subst h
      intro p hp c hc
      simp only [splitDot, List.mem_cons] at hp
      rcases hp with hp | hp
      · subst hp; simp at hc
      · exact List.mem_cons_of_mem _ (ih p hp c hc)
    · rw [splitDot_cons_ne c0 rest h]
      cases hs : splitDot rest with
      | nil => exact absurd hs (splitDot_ne_nil rest)
      | cons p0 ps =>
        intro p hp c hc
        simp only [List.mem_cons] at hp
        rcases hp with hp | hp
        · subst hp
          rcases List.mem_cons.mp hc with hc | hc
          · subst hc; exact List.mem_cons_self _ _
          · exact List.mem_cons_of_mem _ (ih p0 (hs ▸ List.mem_cons_self _ _) c hc)
        · exact List.mem_cons_of_mem _ (ih p (hs ▸ List.mem_cons_of_mem _ hp) c hc)

theorem splitDot_pieces_no_dot (k : Key) : ∀ p ∈ splitDot k, ∀ c ∈ p, c ≠ '.' := by
  induction k with
  | nil =>
    intro p hp c hc
    simp [splitDot] at hp
    subst hp
    simp at hc
  | cons c0 rest ih =>
    by_cases h : c0 = '.'
    · subst h
      intro p hp c hc
      simp only [splitDot, List.mem_cons] at hp
      rcases hp with hp | hp
      · subst hp; simp at hc
      · exact ih p hp c hc
    · rw [splitDot_cons_ne c0 rest h]
      cases hs : splitDot rest with
      | nil => exact absurd hs (splitDot_ne_nil rest)
      | cons p0 ps =>
        intro p hp c hc
        simp only [List.mem_cons] at hp
        rcases hp with hp | hp
        · subst hp
          rcases List.mem_cons.mp hc with hc | hc
          · subst hc; exact h
          · exact ih p0 (hs ▸ List.mem_cons_self _ _) c hc
        · exact ih p (hs ▸ List.mem_cons_of_mem _ hp) c hc

theorem joinSep_cons2 (sep p p2 : Key) (ps : List Key) :
    joinSep sep (p :: p2 :: ps) = p ++ sep ++ joinSep sep (p2 :: ps) := rfl

theorem joinDot_splitDot (k : Key) : joinSep ['.'] (splitDot k) = k := by
  induction k with
  | nil => rfl
  | cons c rest ih =>
    by_cases h : c = '.'
    · subst h
      show joinSep ['.'] ([] :: splitDot rest) = '.' :: rest
      cases hs : splitDot rest with
      | nil => exact absurd hs (splitDot_ne_nil rest)
      | cons p ps =>
        rw [joinSep_cons2, ← hs, ih]
        rfl
    · rw [splitDot_cons_ne c rest h]
      cases hs : splitDot rest with
      | nil => exact absurd hs (splitDot_ne_nil rest)
      | cons p ps =>
        rw [hs] at ih
        cases ps with
        | nil =>
          show c :: p = c :: rest
          rw [show joinSep ['.'] [p] = p from rfl] at ih
          rw [ih]
        | cons q qs =>
          rw [joinSep_cons2] at ih ⊢
          rw [List.cons_append, List.cons_append, ih]

theorem mem_joinSep (sep : Key) (ps : List Key) (c : Char) (h : c ∈ joinSep sep ps) :
    c ∈ sep ∨ ∃ p ∈ ps, c ∈ p := by
  induction ps with
  | nil => simp [joinSep] at h
  | cons p ps ih =>
    cases ps with
    | nil =>
      right
      exact ⟨p, List.mem_cons_self _ _, h⟩
    | cons q qs =>
      rw [joinSep_cons2, List.mem_append, List.mem_append] at h
      rcases h with (h | h) | h
      · right; exact ⟨p, List.mem_cons_self _ _, h⟩
      · left; exact h
      · rcases ih h with h | ⟨p2, hp2, hc⟩
        · left; exact h
        · right; exact ⟨p2, List.mem_cons_of_mem _ hp2, hc⟩

theorem splitDot_append (p t : Key) (hp : ∀ c ∈ p, c ≠ '.') :
    splitDot (p ++ '.' :: t) = p :: splitDot t := by
  induction p with
  | nil => rfl
  | cons c p ih =>
    rw [List.cons_append, splitDot_cons_ne c _ (hp c (List.mem_cons_self _ _)),
      ih (fun x hx => hp x (List.mem_cons_of_mem _ hx))]

theorem splitEsc_append (p t : Key) (hp : ∀ c ∈ p, c ≠ '~') :
    splitEsc (p ++ '~' :: '|' :: '~' :: t) = p :: splitEsc t := by
  induction p with
  | nil => rfl
  | cons c p ih =>
    rw [List.cons_append, splitEsc_cons_ne c _ (hp c (List.mem_cons_self _ _)),
      ih (fun x hx => hp x (List.mem_cons_of_mem _ hx))]

theorem splitDot_join (ps : List Key) (hne : ps ≠ [])
    (hp : ∀ p ∈ ps, ∀ c ∈ p, c ≠ '.') : splitDot (joinSep ['.'] ps) = ps := by
  induction ps with
  | nil => exact absurd rfl hne
  | cons p ps ih =>
    cases ps with
    | nil => exact splitDot_no_dot p (hp p (List.mem_cons_self _ _))
    | cons q qs =>
      rw [joinSep_cons2, List.append_assoc, List.singleton_append,
        splitDot_append p _ (hp p (List.mem_cons_self _ _)),
        ih (by simp) (fun x hx => hp x (List.mem_cons_of_mem _ hx))]

theorem splitEsc_join (ps : List Key) (hne : ps ≠ [])
    (hp : ∀ p ∈ ps, ∀ c ∈ p, c ≠ '~') : splitEsc (joinSep escSep ps) = ps := by
  induction ps with
  | nil => exact absurd rfl hne
  | cons p ps ih =>
    cases ps with
    | nil => exact splitEsc_no_tilde p (hp p (List.mem_cons_self _ _))
    | cons q qs =>
      rw [joinSep_cons2, List.append_assoc,
        show escSep ++ joinSep escSep (q :: qs) = '~' :: '|' :: '~' :: joinSep escSep (q :: qs)
          from rfl,
        splitEsc_append p _ (hp p (List.mem_cons_self _ _)),
        ih (by simp) (fun x hx => hp x (List.mem_cons_of_mem _ hx))]

theorem escapeKey_no_dot (k : Key) : ∀ c ∈ escapeKey k, c ≠ '.' := by
  intro c hc
  unfold escapeKey at hc
  rcases mem_joinSep escSep (splitDot k) c hc with h | ⟨p, hp, hcp⟩
  · intro he
    subst he
    simp [escSep] at h
  · exact splitDot_pieces_no_dot k p hp c hcp

theorem escapeKey_ne_nil (k : Key) (h : k ≠ []) : escapeKey k ≠ [] := by
  unfold escapeKey
  cases hs : splitDot k with
  | nil => exact absurd hs (splitDot_ne_nil k)
  | cons p ps =>
    cases ps with
    | nil =>
      show p ≠ []
      intro hp
      apply h
      rw [← joinDot_splitDot k, hs, hp]
      rfl
    | cons q qs =>
      rw [joinSep_cons2]
      simp [escSep]

theorem unescapeKey_escapeKey (k : Key) (h : ∀ c ∈ k, c ≠ '~') :
    unescapeKey (escapeKey k) = k := by
  unfold unescapeKey escapeKey
  rw [splitEsc_join (splitDot k) (splitDot_ne_nil k)
    (fun p hp c hc => h c (splitDot_mem_subset k p hp c hc))]
  exact joinDot_splitDot k

/-! ## Round-trip machinery II: decimal digits

`flattenJSON` keys array elements by `String(index)`; these lemmas show the
digit strings are nonempty, free of `'.'` and `'~'`, and injective in the
index. -/

theorem toDigitsCore_append (fuel : Nat) : ∀ n ds,
    Nat.toDigitsCore 10 fuel n ds = Nat.toDigitsCore 10 fuel n [] ++ ds := by
  induction fuel with
  | zero => intro n ds; rfl
  | succ fuel ih =>
    intro n ds
    simp only [Nat.toDigitsCore]
    by_cases h : n / 10 = 0
    · simp [h]
    · simp only [if_neg h]
      rw [ih (n / 10) ((n % 10).digitChar :: ds), ih (n / 10) [(n % 10).digitChar]]
      simp

theorem toDigitsCore_fuel (n : Nat) : ∀ f1 f2, n < f1 → n < f2 →
    Nat.toDigitsCore 10 f1 n [] = Nat.toDigitsCore 10 f2 n [] := by
  induction n using Nat.strong_induction_on with
  | _ n ih =>
    intro f1 f2 h1 h2
    cases f1 with
    | zero => omega
    | succ g1 =>
      cases f2 with
      | zero => omega
      | succ g2 =>
        simp only [Nat.toDigitsCore]
        by_cases h : n / 10 = 0
        · simp [h]
        · simp only [if_neg h]
          have h10 : 10 ≤ n := by
            by_contra hlt
            exact h (Nat.div_eq_of_lt (by omega))
          have hlt : n / 10 < n := Nat.div_lt_self (by omega) (by omega)
          rw [toDigitsCore_append g1 (n / 10) [(n % 10).digitChar],
            toDigitsCore_append g2 (n / 10) [(n % 10).digitChar],
            ih (n / 10) hlt g1 g2 (by omega) (by omega)]

theorem toDigits_eq (n : Nat) : Nat.toDigits 10 n =
    if n / 10 = 0 then [Nat.digitChar (n % 10)]
    else Nat.toDigits 10 (n / 10) ++ [Nat.digitChar (n % 10)] := by
  show Nat.toDigitsCore 10 (n + 1) n [] = _
  simp only [Nat.toDigitsCore]
  by_cases h : n / 10 = 0
  · simp [h]
  · simp only [if_neg h]
    have h10 : 10 ≤ n := by
      by_contra hlt
      exact h (Nat.div_eq_of_lt (by omega))
    have hlt : n / 10 < n := Nat.div_lt_self (by omega) (by omega)
    rw [toDigitsCore_append n (n / 10) [(n % 10).digitChar],
      toDigitsCore_fuel (n / 10) n (n / 10 + 1) (by omega) (by omega)]
    rfl

theorem toDigits_ne_nil (n : Nat) : Nat.toDigits 10 n ≠ [] := by
  rw [toDigits_eq]
  by_cases h : n / 10 = 0 <;> simp [h]

theorem toDigits_chars (n : Nat) : ∀ c ∈ Nat.toDigits 10 n, ∃ m, m < 10 ∧ c = Nat.digitChar m := by
  induction n using Nat.strong_induction_on with
  | _ n ih =>
    intro c hc
    rw [toDigits_eq] at hc
    by_cases h : n / 10 = 0
    · rw [if_pos h] at hc
      simp only [List.mem_singleton] at hc
      exact ⟨n % 10, Nat.mod_lt _ (by omega), hc⟩
    · rw [if_neg h] at hc
      rcases List.mem_append.mp hc with hc | hc
      · have h10 : 10 ≤ n := by
          by_contra hlt
          exact h (Nat.div_eq_of_lt (by omega))
        exact ih (n / 10) (Nat.div_lt_self (by omega) (by omega)) c hc
      · simp only [List.mem_singleton] at hc
        exact ⟨n % 10, Nat.mod_lt _ (by omega), hc⟩

theorem digitChar_ok : ∀ m ∈ List.range 10,
    Nat.digitChar m ≠ '~' ∧ Nat.digitChar m ≠ '.' := by decide

theorem digitChar_inj10 : ∀ a ∈ List.range 10, ∀ b ∈ List.range 10,
    Nat.digitChar a = Nat.digitChar b → a = b := by decide

theorem repr_data_toDigits (n : Nat) : (Nat.repr n).data = Nat.toDigits 10 n := rfl

theorem repr_ne_nil (n : Nat) : (Nat.repr n).data ≠ [] := toDigits_ne_nil n

theorem repr_char_ok (n : Nat) : ∀ c ∈ (Nat.repr n).data, c ≠ '~' ∧ c ≠ '.' := by
  intro c hc
  obtain ⟨m, hm, rfl⟩ := toDigits_chars n c hc
  exact digitChar_ok m (List.mem_range.mpr hm)

theorem toDigits_inj (m : Nat) : ∀ n, Nat.toDigits 10 m = Nat.toDigits 10 n → m = n := by
  induction m using Nat.strong_induction_on with
  | _ m ih =>
    intro n h
    rw [toDigits_eq m, toDigits_eq n] at h
    have hmod : 10 * (m / 10) + m % 10 = m := Nat.div_add_mod m 10
    have hmodn : 10 * (n / 10) + n % 10 = n := Nat.div_add_mod n 10
    by_cases hm : m / 10 = 0 <;> by_cases hn : n / 10 = 0
    · rw [if_pos hm, if_pos hn, List.cons.injEq] at h
      have := digitChar_inj10 (m % 10) (List.mem_range.mpr (Nat.mod_lt _ (by omega)))
        (n % 10) (List.mem_range.mpr (Nat.mod_lt _ (by omega))) h.1
      omega
    · rw [if_pos hm, if_neg hn] at h
      have hl := congrArg List.length h
      simp only [List.length_singleton, List.length_append] at hl
      have := toDigits_ne_nil (n / 10)
      cases he : Nat.toDigits 10 (n / 10) with
      | nil => exact absurd he this
      | cons a l => rw [he] at hl; simp at hl
    · rw [if_neg hm, if_pos hn] at h
      have hl := congrArg List.length h
      simp only [List.length_singleton, List.length_append] at hl
      have := toDigits_ne_nil (m / 10)
      cases he : Nat.toDigits 10 (m / 10) with
      | nil => exact absurd he this
      | cons a l => rw [he] at hl; simp at hl
    · rw [if_neg hm, if_neg hn] at h
      obtain ⟨h1, h2⟩ := List.append_inj' h rfl
      have hmm : m / 10 = n / 10 := by
        have h10 : 10 ≤ m := by
          by_contra hlt
          exact hm (Nat.div_eq_of_lt (by omega))
        exact ih (m / 10) (Nat.div_lt_self (by omega) (by omega)) (n / 10) h1
      rw [List.cons.injEq] at h2
      have := digitChar_inj10 (m % 10) (List.mem_range.mpr (Nat.mod_lt _ (by omega)))
        (n % 10) (List.mem_range.mpr (Nat.mod_lt _ (by omega))) h2.1
      omega

theorem repr_data_inj (m n : Nat) (h : (Nat.repr m).data = (Nat.repr n).data) : m = n :=
  toDigits_inj m n h

/-! ## Round-trip machinery III: leaf paths of a tree

`jpaths t` is the specification device for the round-trip proofs: the list,
in `flattenJSON`'s visit order, of (unescaped segment path, leaf value)
pairs of a container.  `pathKey` rebuilds the flat key a path produces, and
`insertAll` is the `unflattenJSON` fold acting on pre-split paths. -/

mutual

def jpaths : JSON → List (List Key × JSON)
  | .obj es => jpathsEntries es
  | .arr es => jpathsElems 0 es
  | _ => []

def jpathsEntries : List (Key × JSON) → List (List Key × JSON)
  | [] => []
  | (k, v) :: rest =>
    (if v.isContainer then (jpaths v).map (fun p => (k :: p.1, p.2)) else [([k], v)])
      ++ jpathsEntries rest

def jpathsElems : Nat → List JSON → List (List Key × JSON)
  | _, [] => []
  | i, v :: rest =>
    (if v.isContainer then (jpaths v).map (fun p => ((Nat.repr i).data :: p.1, p.2))
     else [([(Nat.repr i).data], v)]) ++ jpathsElems (i + 1) rest

end

/-- The flat key `flattenJSON` builds for the segment path `segs` below
`parentKey`: each segment escaped, then attached with `mkKey`. -/
def pathKey (parentKey : Key) (segs : List Key) : Key :=
  segs.foldl (fun p s => mkKey p (escapeKey s)) parentKey

/-- The `unflattenJSON` fold over already-split (path, value) pairs. -/
def insertAll (m : List (Key × JSON)) (ps : List (List Key × JSON)) :
    Option (List (Key × JSON)) :=
  ps.foldl (fun acc p => acc.bind (fun m2 => insertPath m2 p.1 p.2)) (some m)

theorem jpathsEntries_head : ∀ (es : List (Key × JSON)) (p : List Key × JSON),
    p ∈ jpathsEntries es → ∃ k t, p.1 = k :: t ∧ k ∈ jsKeys es := by
  intro es
  induction es with
  | nil => intro p hp; simp [jpathsEntries] at hp
  | cons kv rest ih =>
    obtain ⟨k, v⟩ := kv
    intro p hp
    rw [jpathsEntries, List.mem_append] at hp
    rcases hp with hp | hp
    · by_cases hc : v.isContainer
      · rw [if_pos hc, List.mem_map] at hp
        obtain ⟨q, _, rfl⟩ := hp
        exact ⟨k, q.1, rfl, List.mem_cons_self _ _⟩
      · rw [if_neg hc, List.mem_singleton] at hp
        subst hp
        exact ⟨k, [], rfl, List.mem_cons_self _ _⟩
    · obtain ⟨k2, t, h1, h2⟩ := ih p hp
      exact ⟨k2, t, h1, List.mem_cons_of_mem _ h2⟩

theorem jpathsElems_head : ∀ (vs : List JSON) (i : Nat) (p : List Key × JSON),
    p ∈ jpathsElems i vs → ∃ j t, p.1 = (Nat.repr j).data :: t ∧ i ≤ j := by
  intro vs
  induction vs with
  | nil => intro i p hp; simp [jpathsElems] at hp
  | cons v rest ih =>
    intro i p hp
    rw [jpathsElems, List.mem_append] at hp
    rcases hp with hp | hp
    · by_cases hc : v.isContainer
      · rw [if_pos hc, List.mem_map] at hp
        obtain ⟨q, _, rfl⟩ := hp
        exact ⟨i, q.1, rfl, Nat.le_refl i⟩
      · rw [if_neg hc, List.mem_singleton] at hp
        subst hp
        exact ⟨i, [], rfl, Nat.le_refl i⟩
    · obtain ⟨j, t, h1, h2⟩ := ih (i + 1) p hp
      exact ⟨j, t, h1, by omega⟩

theorem jpaths_fst_ne_nil (v : JSON) (p : List Key × JSON) (hp : p ∈ jpaths v) :
    p.1 ≠ [] := by
  cases v with
  | obj es =>
    obtain ⟨k, t, h1, _⟩ := jpathsEntries_head es p hp
    simp [h1]
  | arr es =>
    obtain ⟨j, t, h1, _⟩ := jpathsElems_head es 0 p hp
    simp [h1]
  | str s => simp [jpaths] at hp
  | num n => simp [jpaths] at hp
  | bool b => simp [jpaths] at hp
  | null => simp [jpaths] at hp

mutual

theorem jpaths_ne_nil : ∀ v : JSON, wfJSON v = true → v.isContainer = true → jpaths v ≠ []
  | .obj es => fun hwf _ => by
    rw [wfJSON, Bool.and_eq_true, Bool.and_eq_true] at hwf
    have hne : es ≠ [] := by
      intro he
      rw [he] at hwf
      simp [List.isEmpty] at hwf
    exact jpathsEntries_ne_nil es hwf.2 hne
  | .arr es => fun hwf _ => by
    rw [wfJSON, Bool.and_eq_true] at hwf
    have hne : es ≠ [] := by
      intro he
      rw [he] at hwf
      simp [List.isEmpty] at hwf
    exact jpathsElems_ne_nil es hwf.2 0 hne
  | .str _ => fun _ hc => by simp [JSON.isContainer] at hc
  | .num _ => fun _ hc => by simp [JSON.isContainer] at hc
  | .bool _ => fun _ hc => by simp [JSON.isContainer] at hc
  | .null => fun _ hc => by simp [JSON.isContainer] at hc

theorem jpathsEntries_ne_nil : ∀ es : List (Key × JSON), wfEntries es = true → es ≠ [] →
    jpathsEntries es ≠ []
  | [] => fun _ hne => absurd rfl hne
  | (k, v) :: rest => fun hwf _ => by
    rw [wfEntries, Bool.and_eq_true, Bool.and_eq_true] at hwf
    rw [jpathsEntries]
    by_cases hc : v.isContainer
    · rw [if_pos hc]
      have := jpaths_ne_nil v hwf.1.2 hc
      intro he
      rw [List.append_eq_nil] at he
      exact this (List.map_eq_nil_iff.mp he.1)
    · rw [if_neg hc]
      simp

theorem jpathsElems_ne_nil : ∀ vs : List JSON, wfElems vs = true → ∀ i : Nat, vs ≠ [] →
    jpathsElems i vs ≠ []
  | [] => fun _ i hne => absurd rfl hne
  | v :: rest => fun hwf i _ => by
    rw [wfElems, Bool.and_eq_true] at hwf
    rw [jpathsElems]
    by_cases hc : v.isContainer
    · rw [if_pos hc]
      have := jpaths_ne_nil v hwf.1 hc
      intro he
      rw [List.append_eq_nil] at he
      exact this (List.map_eq_nil_iff.mp he.1)
    · rw [if_neg hc]
      simp

end

theorem keyOk_spec (k : Key) (h : keyOk k = true) : k ≠ [] ∧ ∀ c ∈ k, c ≠ '~' := by
  rw [keyOk, Bool.and_eq_true, Bool.not_eq_true', Bool.not_eq_true'] at h
  constructor
  · intro he
    rw [he] at h
    simp [List.isEmpty] at h
  · intro c hc he
    subst he
    have h2 : ('~' ∈ k → False) := by
      intro hm
      have := (key_contains_iff [] []).mp
      have hcon : k.contains '~' = true := List.elem_iff.mpr hm
      rw [h.2] at hcon
      exact Bool.false_ne_true hcon
    exact h2 hc

mutual

theorem jpaths_segs : ∀ v : JSON, wfJSON v = true →
    ∀ p ∈ jpaths v, ∀ s ∈ p.1, s ≠ [] ∧ ∀ c ∈ s, c ≠ '~'
  | .obj es => fun hwf p hp => by
    rw [wfJSON, Bool.and_eq_true, Bool.and_eq_true] at hwf
    exact jpathsEntries_segs es hwf.2 p hp
  | .arr es => fun hwf p hp => by
    rw [wfJSON, Bool.and_eq_true] at hwf
    exact jpathsElems_segs es hwf.2 0 p hp
  | .str _ => fun _ p hp => by simp [jpaths] at hp
  | .num _ => fun _ p hp => by simp [jpaths] at hp
  | .bool _ => fun _ p hp => by simp [jpaths] at hp
  | .null => fun _ p hp => by simp [jpaths] at hp

theorem jpathsEntries_segs : ∀ es : List (Key × JSON), wfEntries es = true →
    ∀ p ∈ jpathsEntries es, ∀ s ∈ p.1, s ≠ [] ∧ ∀ c ∈ s, c ≠ '~'
  | [] => fun _ p hp => by simp [jpathsEntries] at hp
  | (k, v) :: rest => fun hwf p hp => by
    rw [wfEntries, Bool.and_eq_true, Bool.and_eq_true] at hwf
    rw [jpathsEntries, List.mem_append] at hp
    rcases hp with hp | hp
    · by_cases hc : v.isContainer
      · rw [if_pos hc, List.mem_map] at hp
        obtain ⟨q, hq, rfl⟩ := hp
        intro s hs
        rcases List.mem_cons.mp hs with hs | hs
        · rw [hs]
          exact keyOk_spec k hwf.1.1
        · exact jpaths_segs v hwf.1.2 q hq s hs
      · rw [if_neg hc, List.mem_singleton] at hp
        subst hp
        intro s hs
        rw [List.mem_singleton] at hs
        rw [hs]
        exact keyOk_spec k hwf.1.1
    · exact jpathsEntries_segs rest hwf.2 p hp

theorem jpathsElems_segs : ∀ vs : List JSON, wfElems vs = true → ∀ i : Nat,
    ∀ p ∈ jpathsElems i vs, ∀ s ∈ p.1, s ≠ [] ∧ ∀ c ∈ s, c ≠ '~'
  | [] => fun _ i p hp => by simp [jpathsElems] at hp
  | v :: rest => fun hwf i p hp => by
    rw [wfElems, Bool.and_eq_true] at hwf
    rw [jpathsElems, List.mem_append] at hp
    rcases hp with hp | hp
    · by_cases hc : v.isContainer
      · rw [if_pos hc, List.mem_map] at hp
        obtain ⟨q, hq, rfl⟩ := hp
        intro s hs
        rcases List.mem_cons.mp hs with hs | hs
        · rw [hs]
          exact ⟨repr_ne_nil i, fun c hc2 => (repr_char_ok i c hc2).1⟩
        · exact jpaths_segs v hwf.1 q hq s hs
      · rw [if_neg hc, List.mem_singleton] at hp
        subst hp
        intro s hs
        rw [List.mem_singleton] at hs
        rw [hs]
        exact ⟨repr_ne_nil i, fun c hc2 => (repr_char_ok i c hc2).1⟩
    · exact jpathsElems_segs rest hwf.2 (i + 1) p hp

end

mutual

theorem jpaths_fst_nodup : ∀ v : JSON, wfJSON v = true → ((jpaths v).map Prod.fst).Nodup
  | .obj es => fun hwf => by
    rw [wfJSON, Bool.and_eq_true, Bool.and_eq_true] at hwf
    exact jpathsEntries_fst_nodup es hwf.2 hwf.1.2
  | .arr es => fun hwf => by
    rw [wfJSON, Bool.and_eq_true] at hwf
    exact jpathsElems_fst_nodup es hwf.2 0
  | .str _ => fun _ => by simp [jpaths]
  | .num _ => fun _ => by simp [jpaths]
  | .bool _ => fun _ => by simp [jpaths]
  | .null => fun _ => by simp [jpaths]

theorem jpathsEntries_fst_nodup : ∀ es : List (Key × JSON), wfEntries es = true →
    nodupKeys (jsKeys es) = true → ((jpathsEntries es).map Prod.fst).Nodup
  | [] => fun _ _ => by simp [jpathsEntries]
  | (k, v) :: rest => fun hwf hnd => by
    rw [wfEntries, Bool.and_eq_true, Bool.and_eq_true] at hwf
    rw [show jsKeys ((k, v) :: rest) = k :: jsKeys rest from rfl, nodupKeys,
      Bool.and_eq_true, Bool.not_eq_true'] at hnd
    have hkrest : k ∉ jsKeys rest := by
      intro hm
      have := (key_contains_iff (jsKeys rest) k).mpr hm
      rw [hnd.1] at this
      exact Bool.false_ne_true this
    rw [jpathsEntries, List.map_append, List.nodup_append]
    refine ⟨?_, jpathsEntries_fst_nodup rest hwf.2 hnd.2, ?_⟩
    · by_cases hc : v.isContainer
      · rw [if_pos hc, List.map_map]
        have : ((jpaths v).map (Prod.fst ∘ fun p => (k :: p.1, p.2))) =
            ((jpaths v).map Prod.fst).map (fun t => k :: t) := by
          rw [List.map_map]
          rfl
        rw [this]
        exact (jpaths_fst_nodup v hwf.1.2).map
          (fun t1 t2 he => by rw [List.cons.injEq] at he; exact he.2)
      · rw [if_neg hc]
        simp
    · intro x hx hx2
      rw [List.mem_map] at hx2
      obtain ⟨p, hp, rfl⟩ := hx2
      obtain ⟨k2, t, hpt, hk2⟩ := jpathsEntries_head rest p hp
      have hxk : ∃ t0, p.1 = k :: t0 := by
        by_cases hc : v.isContainer
        · rw [if_pos hc, List.map_map, List.mem_map] at hx
          obtain ⟨q, _, hq⟩ := hx
          exact ⟨q.1, hq.symm⟩
        · rw [if_neg hc] at hx
          simp only [List.map_singleton, List.mem_singleton] at hx
          exact ⟨[], hx⟩
      obtain ⟨t0, ht0⟩ := hxk
      rw [ht0, List.cons.injEq] at hpt
      exact hkrest (hpt.1 ▸ hk2)

theorem jpathsElems_fst_nodup : ∀ vs : List JSON, wfElems vs = true → ∀ i : Nat,
    ((jpathsElems i vs).map Prod.fst).Nodup
  | [] => fun _ i => by simp [jpathsElems]
  | v :: rest => fun hwf i => by
    rw [wfElems, Bool.and_eq_true] at hwf
    rw [jpathsElems, List.map_append, List.nodup_append]
    refine ⟨?_, jpathsElems_fst_nodup rest hwf.2 (i + 1), ?_⟩
    · by_cases hc : v.isContainer
      · rw [if_pos hc, List.map_map]
        have : ((jpaths v).map (Prod.fst ∘ fun p => ((Nat.repr i).data :: p.1, p.2))) =
            ((jpaths v).map Prod.fst).map (fun t => (Nat.repr i).data :: t) := by
          rw [List.map_map]
          rfl
        rw [this]
        exact (jpaths_fst_nodup v hwf.1).map
          (fun t1 t2 he => by rw [List.cons.injEq] at he; exact he.2)
      · rw [if_neg hc]
        simp
    · intro x hx hx2
      rw [List.mem_map] at hx2
      obtain ⟨p, hp, rfl⟩ := hx2
      obtain ⟨j, t, hpt, hj⟩ := jpathsElems_head rest (i + 1) p hp
      have hxk : ∃ t0, p.1 = (Nat.repr i).data :: t0 := by
        by_cases hc : v.isContainer
        · rw [if_pos hc, List.map_map, List.mem_map] at hx
          obtain ⟨q, _, hq⟩ := hx
          exact ⟨q.1, hq.symm⟩
        · rw [if_neg hc] at hx
          simp only [List.map_singleton, List.mem_singleton] at hx
          exact ⟨[], hx⟩
      obtain ⟨t0, ht0⟩ := hxk
      rw [ht0, List.cons.injEq] at hpt
      have := repr_data_inj i j hpt.1
      omega

end

/-! ## Round-trip machinery IV: flat keys and their decoding -/

theorem mkKey_mkKey (pk b c : Key) (hb : b ≠ []) :
    mkKey (mkKey pk b) c = mkKey pk (b ++ '.' :: c) := by
  have hbe : b.isEmpty = false := by
    cases b with
    | nil => exact absurd rfl hb
    | cons y ys => rfl
  cases pk with
  | nil =>
    show mkKey b c = b ++ '.' :: c
    unfold mkKey
    rw [hbe]
    rfl
  | cons x xs =>
    show mkKey (x :: xs ++ '.' :: b) c = mkKey (x :: xs) (b ++ '.' :: c)
    unfold mkKey
    rw [show (x :: xs ++ '.' :: b).isEmpty = false from by rw [List.cons_append]; rfl,
      show (x :: xs).isEmpty = false from rfl]
    show (x :: xs ++ '.' :: b) ++ '.' :: c = x :: xs ++ '.' :: (b ++ '.' :: c)
    simp

theorem pathKey_cons (pk k : Key) (segs : List Key) :
    pathKey pk (k :: segs) = pathKey (mkKey pk (escapeKey k)) segs := rfl

theorem pathKey_eq : ∀ (segs : List Key) (pk : Key), segs ≠ [] → (∀ s ∈ segs, s ≠ []) →
    pathKey pk segs = mkKey pk (joinSep ['.'] (segs.map escapeKey)) := by
  intro segs
  induction segs with
  | nil => intro pk h; exact absurd rfl h
  | cons s segs ih =>
    intro pk _ hok
    cases segs with
    | nil => rfl
    | cons s2 r =>
      rw [pathKey_cons, ih (mkKey pk (escapeKey s)) (by simp)
        (fun x hx => hok x (List.mem_cons_of_mem _ hx))]
      rw [mkKey_mkKey pk _ _ (escapeKey_ne_nil s (hok s (List.mem_cons_self _ _)))]
      show mkKey pk (escapeKey s ++ '.' :: joinSep ['.'] ((s2 :: r).map escapeKey)) =
        mkKey pk (joinSep ['.'] (escapeKey s :: escapeKey s2 :: r.map escapeKey))
      rw [joinSep_cons2, List.append_assoc, List.singleton_append]
      rfl

theorem mkKey_nil_left (e : Key) : mkKey [] e = e := rfl

theorem decode_pathKey (segs : List Key) (hne : segs ≠ [])
    (hok : ∀ s ∈ segs, s ≠ [] ∧ ∀ c ∈ s, c ≠ '~') :
    splitKeySegs (pathKey [] segs) = segs := by
  rw [pathKey_eq segs [] hne (fun s hs => (hok s hs).1), mkKey_nil_left]
  unfold splitKeySegs
  rw [splitDot_join (segs.map escapeKey)
    (by cases segs with | nil => exact absurd rfl hne | cons a b => simp)
    (by
      intro p hp c hc
      rw [List.mem_map] at hp
      obtain ⟨s, _, rfl⟩ := hp
      exact escapeKey_no_dot s c hc)]
  rw [List.map_map]
  have : ∀ s ∈ segs, (unescapeKey ∘ escapeKey) s = id s := by
    intro s hs
    exact unescapeKey_escapeKey s (hok s hs).2
  rw [List.map_congr_left this, List.map_id]

/-! ## Round-trip machinery V: the shape of `flattenJSON`

Under distinctness of the generated flat keys (and their freshness with
respect to the accumulator), the `flattenJSON` recursion appends exactly
the (flat key, leaf value) pairs of `jpaths`, in visit order. -/

mutual

theorem flattenAux_eq : ∀ (t : JSON) (pk : Key) (acc : List (Key × JSON)),
    ((jpaths t).map (fun p => pathKey pk p.1)).Nodup →
    (∀ p ∈ jpaths t, pathKey pk p.1 ∉ jsKeys acc) →
    flattenAux t pk acc = acc ++ (jpaths t).map (fun p => (pathKey pk p.1, p.2))
  | .obj es, pk, acc => fun H1 H2 => flattenObj_eq es pk acc H1 H2
  | .arr es, pk, acc => fun H1 H2 => flattenArr_eq es 0 pk acc H1 H2
  | .str _, pk, acc => fun _ _ => by simp [flattenAux, jpaths]
  | .num _, pk, acc => fun _ _ => by simp [flattenAux, jpaths]
  | .bool _, pk, acc => fun _ _ => by simp [flattenAux, jpaths]
  | .null, pk, acc => fun _ _ => by simp [flattenAux, jpaths]

theorem flattenObj_eq : ∀ (es : List (Key × JSON)) (pk : Key) (acc : List (Key × JSON)),
    ((jpathsEntries es).map (fun p => pathKey pk p.1)).Nodup →
    (∀ p ∈ jpathsEntries es, pathKey pk p.1 ∉ jsKeys acc) →
    flattenObj es pk acc = acc ++ (jpathsEntries es).map (fun p => (pathKey pk p.1, p.2))
  | [], pk, acc => fun _ _ => by simp [flattenObj, jpathsEntries]
  | (k, v) :: rest, pk, acc => fun H1 H2 => by
    by_cases hc : v.isContainer
    · have hpart : jpathsEntries ((k, v) :: rest) =
          (jpaths v).map (fun p => (k :: p.1, p.2)) ++ jpathsEntries rest := by
        rw [jpathsEntries, if_pos hc]
      rw [hpart] at H1 H2
      rw [List.map_append, List.nodup_append] at H1
      have hmapeq : (((jpaths v).map (fun p => (k :: p.1, p.2))).map
            (fun p => pathKey pk p.1)) =
          (jpaths v).map (fun p => pathKey (mkKey pk (escapeKey k)) p.1) := by
        rw [List.map_map]
        rfl
      have hsub := flattenAux_eq v (mkKey pk (escapeKey k)) acc
        (by rw [← hmapeq]; exact H1.1)
        (by
          intro q hq
          have := H2 ((fun p => (k :: p.1, p.2)) q)
            (List.mem_append_left _ (List.mem_map_of_mem _ hq))
          exact this)
      have hstep : flattenObj ((k, v) :: rest) pk acc =
          flattenObj rest pk (flattenAux v (mkKey pk (escapeKey k)) acc) := by
        rw [flattenObj, if_pos hc]
      have hpairs : (((jpaths v).map (fun p => (k :: p.1, p.2))).map
            (fun p => (pathKey pk p.1, p.2))) =
          (jpaths v).map (fun p => (pathKey (mkKey pk (escapeKey k)) p.1, p.2)) := by
        rw [List.map_map]
        rfl
      have hrest := flattenObj_eq rest pk
        (acc ++ (jpaths v).map (fun p => (pathKey (mkKey pk (escapeKey k)) p.1, p.2)))
        H1.2.1
        (by
          intro p hp
          rw [jsKeys_append, List.mem_append]
          intro hm
          rcases hm with hm | hm
          · exact H2 p (List.mem_append_right _ hp) hm
          · rw [show jsKeys ((jpaths v).map
                (fun p => (pathKey (mkKey pk (escapeKey k)) p.1, p.2))) =
                (jpaths v).map (fun p => pathKey (mkKey pk (escapeKey k)) p.1) from by
              rw [jsKeys, List.map_map]
              rfl] at hm
            rw [← hmapeq] at hm
            exact H1.2.2 hm (List.mem_map_of_mem _ hp))
      rw [hstep, hsub, hrest, hpart, List.map_append, hpairs, List.append_assoc]
    · have hpart : jpathsEntries ((k, v) :: rest) = ([k], v) :: jpathsEntries rest := by
        rw [jpathsEntries, if_neg hc]
        rfl
      rw [hpart] at H1 H2
      rw [List.map_cons, List.nodup_cons] at H1
      have hstep : flattenObj ((k, v) :: rest) pk acc =
          flattenObj rest pk (jsSet acc (mkKey pk (escapeKey k)) v) := by
        rw [flattenObj, if_neg hc]
      have hfresh : pathKey pk [k] ∉ jsKeys acc := H2 _ (List.mem_cons_self _ _)
      have hset : jsSet acc (mkKey pk (escapeKey k)) v = acc ++ [(pathKey pk [k], v)] :=
        jsSet_of_not_mem v hfresh
      have hrest := flattenObj_eq rest pk (acc ++ [(pathKey pk [k], v)]) H1.2
        (by
          intro p hp
          rw [jsKeys_append, List.mem_append]
          intro hm
          rcases hm with hm | hm
          · exact H2 p (List.mem_cons_of_mem _ hp) hm
          · rw [show jsKeys [(pathKey pk [k], v)] = [pathKey pk [k]] from rfl,
              List.mem_singleton] at hm
            exact H1.1 (hm ▸ List.mem_map_of_mem (fun p => pathKey pk p.1) hp))
      rw [hstep, hset, hrest, hpart, List.map_cons, List.append_assoc,
        List.singleton_append]

theorem flattenArr_eq : ∀ (vs : List JSON) (i : Nat) (pk : Key) (acc : List (Key × JSON)),
    ((jpathsElems i vs).map (fun p => pathKey pk p.1)).Nodup →
    (∀ p ∈ jpathsElems i vs, pathKey pk p.1 ∉ jsKeys acc) →
    flattenArr vs i pk acc = acc ++ (jpathsElems i vs).map (fun p => (pathKey pk p.1, p.2))
  | [], i, pk, acc => fun _ _ => by simp [flattenArr, jpathsElems]
  | v :: rest, i, pk, acc => fun H1 H2 => by
    by_cases hc : v.isContainer
    · have hpart : jpathsElems i (v :: rest) =
          (jpaths v).map (fun p => ((Nat.repr i).data :: p.1, p.2)) ++
            jpathsElems (i + 1) rest := by
        rw [jpathsElems, if_pos hc]
      rw [hpart] at H1 H2
      rw [List.map_append, List.nodup_append] at H1
      have hmapeq : (((jpaths v).map (fun p => ((Nat.repr i).data :: p.1, p.2))).map
            (fun p => pathKey pk p.1)) =
          (jpaths v).map (fun p => pathKey (mkKey pk (escapeKey (Nat.repr i).data)) p.1) := by
        rw [List.map_map]
        rfl
      have hsub := flattenAux_eq v (mkKey pk (escapeKey (Nat.repr i).data)) acc
        (by rw [← hmapeq]; exact H1.1)
        (by
          intro q hq
          have := H2 ((fun p => ((Nat.repr i).data :: p.1, p.2)) q)
            (List.mem_append_left _ (List.mem_map_of_mem _ hq))
          exact this)
      have hstep : flattenArr (v :: rest) i pk acc =
          flattenArr rest (i + 1) pk (flattenAux v (mkKey pk (escapeKey (Nat.repr i).data)) acc) := by
        rw [flattenArr, if_pos hc]
      have hpairs : (((jpaths v).map (fun p => ((Nat.repr i).data :: p.1, p.2))).map
            (fun p => (pathKey pk p.1, p.2))) =
          (jpaths v).map (fun p => (pathKey (mkKey pk (escapeKey (Nat.repr i).data)) p.1, p.2)) := by
        rw [List.map_map]
        rfl
      have hrest := flattenArr_eq rest (i + 1) pk
        (acc ++ (jpaths v).map
          (fun p => (pathKey (mkKey pk (escapeKey (Nat.repr i).data)) p.1, p.2)))
        H1.2.1
        (by
          intro p hp
          rw [jsKeys_append, List.mem_append]
          intro hm
          rcases hm with hm | hm
          · exact H2 p (List.mem_append_right _ hp) hm
          · rw [show jsKeys ((jpaths v).map
                (fun p => (pathKey (mkKey pk (escapeKey (Nat.repr i).data)) p.1, p.2))) =
                (jpaths v).map
                  (fun p => pathKey (mkKey pk (escapeKey (Nat.repr i).data)) p.1) from by
              rw [jsKeys, List.map_map]
              rfl] at hm
            rw [← hmapeq] at hm
            exact H1.2.2 hm (List.mem_map_of_mem _ hp))
      rw [hstep, hsub, hrest, hpart, List.map_append, hpairs, List.append_assoc]
    · have hpart : jpathsElems i (v :: rest) =
          ([(Nat.repr i).data], v) :: jpathsElems (i + 1) rest := by
        rw [jpathsElems, if_neg hc]
        rfl
      rw [hpart] at H1 H2
      rw [List.map_cons, List.nodup_cons] at H1
      have hstep : flattenArr (v :: rest) i pk acc =
          flattenArr rest (i + 1) pk (jsSet acc (mkKey pk (escapeKey (Nat.repr i).data)) v) := by
        rw [flattenArr, if_neg hc]
      have hfresh : pathKey pk [(Nat.repr i).data] ∉ jsKeys acc := H2 _ (List.mem_cons_self _ _)
      have hset : jsSet acc (mkKey pk (escapeKey (Nat.repr i).data)) v =
          acc ++ [(pathKey pk [(Nat.repr i).data], v)] :=
        jsSet_of_not_mem v hfresh
      have hrest := flattenArr_eq rest (i + 1) pk
        (acc ++ [(pathKey pk [(Nat.repr i).data], v)]) H1.2
        (by
          intro p hp
          rw [jsKeys_append, List.mem_append]
          intro hm
          rcases hm with hm | hm
          · exact H2 p (List.mem_cons_of_mem _ hp) hm
          · rw [show jsKeys [(pathKey pk [(Nat.repr i).data], v)] =
                [pathKey pk [(Nat.repr i).data]] from rfl, List.mem_singleton] at hm
            exact H1.1 (hm ▸ List.mem_map_of_mem (fun p => pathKey pk p.1) hp))
      rw [hstep, hset, hrest, hpart, List.map_cons, List.append_assoc,
        List.singleton_append]

end

/-! ## Round-trip machinery VI: rebuilding a tree with `insertPath` -/

theorem a2o_leaf (v : JSON) (hc : v.isContainer = false) : arraysToObjects v = v := by
  cases v with
  | obj es => simp [JSON.isContainer] at hc
  | arr es => simp [JSON.isContainer] at hc
  | str s => rfl
  | num n => rfl
  | bool b => rfl
  | null => rfl

theorem jsSet_append_self {α : Type} (m : List (Key × α)) (k : Key) (vold vnew : α)
    (hk : k ∉ jsKeys m) : jsSet (m ++ [(k, vold)]) k vnew = m ++ [(k, vnew)] := by
  have hany : ((m ++ [(k, vold)]).any (fun p => p.1 == k)) = true := by
    rw [List.any_eq_true]
    exact ⟨(k, vold), by simp, by simp⟩
  unfold jsSet
  rw [if_pos hany, List.map_append]
  have hm : ∀ a ∈ m, (if a.1 == k then (k, vnew) else a) = a := by
    intro a ha
    rw [if_neg]
    intro hbe
    have he : a.1 = k := beq_iff_eq.mp hbe
    exact hk (he ▸ List.mem_map_of_mem Prod.fst ha)
  rw [List.map_congr_left hm, List.map_id']
  simp

theorem insertPath_create (m : List (Key × JSON)) (k k2 : Key) (p : List Key) (v : JSON)
    (hk : k ∉ jsKeys m) :
    insertPath m (k :: k2 :: p) v =
      (insertPath [] (k2 :: p) v).map (fun m3 => m ++ [(k, JSON.obj m3)]) := by
  rw [insertPath, (jsGet_eq_none_iff m k).mpr hk]
  show ((insertPath [] (k2 :: p) v).map (fun m3 => jsSet m k (JSON.obj m3))) = _
  cases h3 : insertPath [] (k2 :: p) v with
  | none => rfl
  | some m3 =>
    simp only [Option.map]
    rw [jsSet_of_not_mem _ hk]

theorem insertPath_descend (m mi : List (Key × JSON)) (k k2 : Key) (p : List Key) (v : JSON)
    (hk : k ∉ jsKeys m) :
    insertPath (m ++ [(k, JSON.obj mi)]) (k :: k2 :: p) v =
      (insertPath mi (k2 :: p) v).map (fun m3 => m ++ [(k, JSON.obj m3)]) := by
  have hg : jsGet (m ++ [(k, JSON.obj mi)]) k = some (JSON.obj mi) := by
    rw [jsGet_append, (jsGet_eq_none_iff m k).mpr hk]
    show jsGet [(k, JSON.obj mi)] k = some (JSON.obj mi)
    rw [jsGet_cons]
    simp
  rw [insertPath, hg]
  show ((insertPath mi (k2 :: p) v).map
      (fun m3 => jsSet (m ++ [(k, JSON.obj mi)]) k (JSON.obj m3))) = _
  cases h3 : insertPath mi (k2 :: p) v with
  | none => rfl
  | some m3 =>
    simp only [Option.map]
    rw [jsSet_append_self m k _ _ hk]

theorem foldl_insert_none (ps : List (List Key × JSON)) :
    ps.foldl (fun acc p => acc.bind (fun m2 => insertPath m2 p.1 p.2)) none = none := by
  induction ps with
  | nil => rfl
  | cons p ps ih =>
    rw [List.foldl_cons]
    exact ih

theorem insertAll_cons (m : List (Key × JSON)) (p : List Key × JSON)
    (ps : List (List Key × JSON)) :
    insertAll m (p :: ps) = (insertPath m p.1 p.2).bind (fun m2 => insertAll m2 ps) := by
  unfold insertAll
  rw [List.foldl_cons]
  show List.foldl (fun acc q => acc.bind (fun m2 => insertPath m2 q.1 q.2))
      (insertPath m p.1 p.2) ps =
    (insertPath m p.1 p.2).bind (fun m2 => insertAll m2 ps)
  cases h : insertPath m p.1 p.2 with
  | none => exact foldl_insert_none ps
  | some m2 => rfl

theorem insertAll_append (m : List (Key × JSON)) (xs ys : List (List Key × JSON)) :
    insertAll m (xs ++ ys) = (insertAll m xs).bind (fun m2 => insertAll m2 ys) := by
  induction xs generalizing m with
  | nil => rfl
  | cons p xs ih =>
    rw [List.cons_append, insertAll_cons, insertAll_cons]
    cases h : insertPath m p.1 p.2 with
    | none => rfl
    | some m2 => exact ih m2

theorem insertAll_prefixed (k : Key) : ∀ (ps : List (List Key × JSON))
    (m mi : List (Key × JSON)), k ∉ jsKeys m → (∀ p ∈ ps, p.1 ≠ []) →
    insertAll (m ++ [(k, JSON.obj mi)]) (ps.map (fun p => (k :: p.1, p.2))) =
      (insertAll mi ps).map (fun m2 => m ++ [(k, JSON.obj m2)]) := by
  intro ps
  induction ps with
  | nil =>
    intro m mi _ _
    rfl
  | cons p ps ih =>
    intro m mi hk hne
    cases hp1 : p.1 with
    | nil => exact absurd hp1 (hne p (List.mem_cons_self _ _))
    | cons k2 rest =>
      rw [List.map_cons, insertAll_cons, insertAll_cons]
      show (insertPath (m ++ [(k, JSON.obj mi)]) (k :: p.1) p.2).bind
          (fun m2 => insertAll m2 (ps.map (fun p => (k :: p.1, p.2)))) = _
      rw [hp1, insertPath_descend m mi k k2 rest p.2 hk]
      cases h3 : insertPath mi (k2 :: rest) p.2 with
      | none => rfl
      | some mi2 =>
        show insertAll (m ++ [(k, JSON.obj mi2)]) (ps.map (fun p => (k :: p.1, p.2))) = _
        rw [ih m mi2 hk (fun q hq => hne q (List.mem_cons_of_mem _ hq))]
        rfl

theorem insertAll_prefix_create (k : Key) (ps : List (List Key × JSON))
    (m : List (Key × JSON)) (hk : k ∉ jsKeys m) (hne : ps ≠ [])
    (hps : ∀ p ∈ ps, p.1 ≠ []) :
    insertAll m (ps.map (fun p => (k :: p.1, p.2))) =
      (insertAll [] ps).map (fun m2 => m ++ [(k, JSON.obj m2)]) := by
  cases ps with
  | nil => exact absurd rfl hne
  | cons p ps =>
    cases hp1 : p.1 with
    | nil => exact absurd hp1 (hps p (List.mem_cons_self _ _))
    | cons k2 rest =>
      rw [List.map_cons, insertAll_cons, insertAll_cons]
      show (insertPath m (k :: p.1) p.2).bind
          (fun m2 => insertAll m2 (ps.map (fun p => (k :: p.1, p.2)))) = _
      rw [hp1, insertPath_create m k k2 rest p.2 hk]
      cases h3 : insertPath [] (k2 :: rest) p.2 with
      | none => rfl
      | some mi2 =>
        show insertAll (m ++ [(k, JSON.obj mi2)]) (ps.map (fun p => (k :: p.1, p.2))) = _
        rw [insertAll_prefixed k ps m mi2 hk (fun q hq => hps q (List.mem_cons_of_mem _ hq))]
        rfl

theorem foldl_congr_mem {α β : Type} : ∀ (l : List β) (f g : α → β → α) (init : α),
    (∀ acc b, b ∈ l → f acc b = g acc b) → l.foldl f init = l.foldl g init := by
  intro l
  induction l with
  | nil => intro f g init _; rfl
  | cons b l ih =>
    intro f g init h
    rw [List.foldl_cons, List.foldl_cons, h init b (List.mem_cons_self _ _)]
    exact ih f g _ (fun acc b2 hb2 => h acc b2 (List.mem_cons_of_mem _ hb2))

mutual

theorem insertAll_cont : ∀ (v : JSON) (k : Key) (m : List (Key × JSON)),
    wfJSON v = true → v.isContainer = true → k ∉ jsKeys m →
    insertAll m ((jpaths v).map (fun p => (k :: p.1, p.2))) =
      some (m ++ [(k, arraysToObjects v)])
  | .obj es, k, m => fun hwf hc hk => by
    rw [wfJSON, Bool.and_eq_true, Bool.and_eq_true] at hwf
    have hesne : es ≠ [] := by
      intro he
      rw [he] at hwf
      simp [List.isEmpty] at hwf
    have hne : jpathsEntries es ≠ [] := jpathsEntries_ne_nil es hwf.2 hesne
    have hps : ∀ p ∈ jpathsEntries es, p.1 ≠ [] :=
      fun p hp => jpaths_fst_ne_nil (.obj es) p hp
    show insertAll m ((jpathsEntries es).map (fun p => (k :: p.1, p.2))) = _
    rw [insertAll_prefix_create k _ m hk hne hps,
      insertAll_entries es [] hwf.2 hwf.1.2 (by intro key _ h; simp [jsKeys] at h)]
    rfl
  | .arr es, k, m => fun hwf hc hk => by
    rw [wfJSON, Bool.and_eq_true] at hwf
    have hesne : es ≠ [] := by
      intro he
      rw [he] at hwf
      simp [List.isEmpty] at hwf
    have hne : jpathsElems 0 es ≠ [] := jpathsElems_ne_nil es hwf.2 0 hesne
    have hps : ∀ p ∈ jpathsElems 0 es, p.1 ≠ [] :=
      fun p hp => jpaths_fst_ne_nil (.arr es) p hp
    show insertAll m ((jpathsElems 0 es).map (fun p => (k :: p.1, p.2))) = _
    rw [insertAll_prefix_create k _ m hk hne hps,
      insertAll_elems es 0 [] hwf.2 (by intro j _ h; simp [jsKeys] at h)]
    rfl
  | .str _, k, m => fun _ hc _ => by simp [JSON.isContainer] at hc
  | .num _, k, m => fun _ hc _ => by simp [JSON.isContainer] at hc
  | .bool _, k, m => fun _ hc _ => by simp [JSON.isContainer] at hc
  | .null, k, m => fun _ hc _ => by simp [JSON.isContainer] at hc

theorem insertAll_entries : ∀ (es : List (Key × JSON)) (m : List (Key × JSON)),
    wfEntries es = true → nodupKeys (jsKeys es) = true →
    (∀ key ∈ jsKeys es, key ∉ jsKeys m) →
    insertAll m (jpathsEntries es) = some (m ++ a2oEntries es)
  | [], m => fun _ _ _ => by
    show some m = some (m ++ a2oEntries [])
    rw [show a2oEntries [] = [] from rfl, List.append_nil]
  | (k, v) :: rest, m => fun hwf hnd hfresh => by
    rw [wfEntries, Bool.and_eq_true, Bool.and_eq_true] at hwf
    rw [show jsKeys ((k, v) :: rest) = k :: jsKeys rest from rfl, nodupKeys,
      Bool.and_eq_true, Bool.not_eq_true'] at hnd
    have hkm : k ∉ jsKeys m := hfresh k (List.mem_cons_self _ _)
    have hkrest : k ∉ jsKeys rest := by
      intro hm
      have := (key_contains_iff (jsKeys rest) k).mpr hm
      rw [hnd.1] at this
      exact Bool.false_ne_true this
    have hfresh2 : ∀ key ∈ jsKeys rest, key ∉ jsKeys (m ++ [(k, arraysToObjects v)]) := by
      intro key hkey
      rw [jsKeys_append, List.mem_append]
      intro hmem
      rcases hmem with hmem | hmem
      · exact hfresh key (List.mem_cons_of_mem _ hkey) hmem
      · rw [show jsKeys [(k, arraysToObjects v)] = [k] from rfl, List.mem_singleton] at hmem
        exact hkrest (hmem ▸ hkey)
    by_cases hc : v.isContainer
    · rw [show jpathsEntries ((k, v) :: rest) =
          (jpaths v).map (fun p => (k :: p.1, p.2)) ++ jpathsEntries rest from by
        rw [jpathsEntries, if_pos hc]]
      rw [insertAll_append, insertAll_cont v k m hwf.1.2 hc hkm]
      show insertAll (m ++ [(k, arraysToObjects v)]) (jpathsEntries rest) = _
      rw [insertAll_entries rest _ hwf.2 hnd.2 hfresh2]
      rw [show a2oEntries ((k, v) :: rest) = (k, arraysToObjects v) :: a2oEntries rest from rfl,
        List.append_assoc, List.singleton_append]
    · rw [show jpathsEntries ((k, v) :: rest) = ([k], v) :: jpathsEntries rest from by
        rw [jpathsEntries, if_neg hc]
        rfl]
      rw [insertAll_cons]
      show (insertPath m [k] v).bind (fun m2 => insertAll m2 (jpathsEntries rest)) = _
      rw [show insertPath m [k] v = some (jsSet m k v) from rfl, jsSet_of_not_mem v hkm]
      show insertAll (m ++ [(k, v)]) (jpathsEntries rest) = _
      have hfresh3 : ∀ key ∈ jsKeys rest, key ∉ jsKeys (m ++ [(k, v)]) := by
        have ha2o : arraysToObjects v = v := a2o_leaf v (Bool.eq_false_iff.mpr hc)
        rw [← ha2o]
        exact hfresh2
      rw [insertAll_entries rest _ hwf.2 hnd.2 hfresh3]
      rw [show a2oEntries ((k, v) :: rest) = (k, arraysToObjects v) :: a2oEntries rest from rfl,
        a2o_leaf v (Bool.eq_false_iff.mpr hc), List.append_assoc, List.singleton_append]

theorem insertAll_elems : ∀ (vs : List JSON) (i : Nat) (m : List (Key × JSON)),
    wfElems vs = true →
    (∀ j, i ≤ j → (Nat.repr j).data ∉ jsKeys m) →
    insertAll m (jpathsElems i vs) = some (m ++ a2oElems i vs)
  | [], i, m => fun _ _ => by
    show some m = some (m ++ a2oElems i [])
    rw [show a2oElems i [] = [] from rfl, List.append_nil]
  | v :: rest, i, m => fun hwf hfresh => by
    rw [wfElems, Bool.and_eq_true] at hwf
    have hkm : (Nat.repr i).data ∉ jsKeys m := hfresh i (Nat.le_refl i)
    have hfresh2 : ∀ j, i + 1 ≤ j →
        (Nat.repr j).data ∉ jsKeys (m ++ [((Nat.repr i).data, arraysToObjects v)]) := by
      intro j hj
      rw [jsKeys_append, List.mem_append]
      intro hmem
      rcases hmem with hmem | hmem
      · exact hfresh j (by omega) hmem
      · rw [show jsKeys [((Nat.repr i).data, arraysToObjects v)] = [(Nat.repr i).data] from rfl,
          List.mem_singleton] at hmem
        have := repr_data_inj j i hmem
        omega
    by_cases hc : v.isContainer
    · rw [show jpathsElems i (v :: rest) =
          (jpaths v).map (fun p => ((Nat.repr i).data :: p.1, p.2)) ++
            jpathsElems (i + 1) rest from by
        rw [jpathsElems, if_pos hc]]
      rw [insertAll_append, insertAll_cont v ((Nat.repr i).data) m hwf.1 hc hkm]
      show insertAll (m ++ [((Nat.repr i).data, arraysToObjects v)]) (jpathsElems (i + 1) rest) = _
      rw [insertAll_elems rest (i + 1) _ hwf.2 hfresh2]
      rw [show a2oElems i (v :: rest) =
          ((Nat.repr i).data, arraysToObjects v) :: a2oElems (i + 1) rest from rfl,
        List.append_assoc, List.singleton_append]
    · rw [show jpathsElems i (v :: rest) =
          ([(Nat.repr i).data], v) :: jpathsElems (i + 1) rest from by
        rw [jpathsElems, if_neg hc]
        rfl]
      rw [insertAll_cons]
      show (insertPath m [(Nat.repr i).data] v).bind
          (fun m2 => insertAll m2 (jpathsElems (i + 1) rest)) = _
      rw [show insertPath m [(Nat.repr i).data] v = some (jsSet m ((Nat.repr i).data) v) from rfl,
        jsSet_of_not_mem v hkm]
      show insertAll (m ++ [((Nat.repr i).data, v)]) (jpathsElems (i + 1) rest) = _
      have hfresh3 : ∀ j, i + 1 ≤ j →
          (Nat.repr j).data ∉ jsKeys (m ++ [((Nat.repr i).data, v)]) := by
        have ha2o : arraysToObjects v = v := a2o_leaf v (Bool.eq_false_iff.mpr hc)
        rw [← ha2o]
        exact hfresh2
      rw [insertAll_elems rest (i + 1) _ hwf.2 hfresh3]
      rw [show a2oElems i (v :: rest) =
          ((Nat.repr i).data, arraysToObjects v) :: a2oElems (i + 1) rest from rfl,
        a2o_leaf v (Bool.eq_false_iff.mpr hc), List.append_assoc, List.singleton_append]

end

/-! ## Claims C1 and C7 — the flatten/unflatten round trip -/

/-- C1 as amended: for every well-formed container tree (object keys
nonempty, duplicate-free within each object and free of `'~'`; no empty
objects or arrays), `unflattenJSON (flattenJSON t)` reconstructs `t`
exactly up to arrays becoming plain objects keyed by the stringified
indices.  Leaf values are carried through unchanged — contrary to the
claim, they are never stringified (see the counterexample). -/
theorem flattenJSON_roundtrip (t : JSON) (hwf : wfJSON t = true)
    (hc : t.isContainer = true) :
    unflattenJSON (flattenJSON t) = some (arraysToObjects t) := by
  have hsegs := jpaths_segs t hwf
  have hne : ∀ p ∈ jpaths t, p.1 ≠ [] := fun p hp => jpaths_fst_ne_nil t p hp
  have hdec : ∀ p ∈ jpaths t, splitKeySegs (pathKey [] p.1) = p.1 := by
    intro p hp
    exact decode_pathKey p.1 (hne p hp) (hsegs p hp)
  have hinj : ((jpaths t).map (fun p => pathKey [] p.1)).Nodup := by
    have hmm : (jpaths t).map (fun p => pathKey [] p.1) =
        ((jpaths t).map Prod.fst).map (fun segs => pathKey [] segs) := by
      rw [List.map_map]
      rfl
    rw [hmm]
    refine List.Nodup.map_on ?_ (jpaths_fst_nodup t hwf)
    intro x hx y hy hxy
    rw [List.mem_map] at hx hy
    obtain ⟨p, hp, rfl⟩ := hx
    obtain ⟨q, hq, rfl⟩ := hy
    rw [← decode_pathKey p.1 (hne p hp) (hsegs p hp), hxy,
      decode_pathKey q.1 (hne q hq) (hsegs q hq)]
  have hflat : flattenJSON t = (jpaths t).map (fun p => (pathKey [] p.1, p.2)) := by
    show flattenAux t [] [] = _
    rw [flattenAux_eq t [] [] hinj (fun p _ h => by simp [jsKeys] at h)]
    rw [List.nil_append]
  rw [hflat]
  unfold unflattenJSON
  have h1 : List.foldl
      (fun acc kv => acc.bind (fun m => insertPath m (splitKeySegs kv.1) kv.2))
      (some ([] : List (Key × JSON)))
      ((jpaths t).map (fun p => (pathKey [] p.1, p.2))) =
      insertAll [] (jpaths t) := by
    rw [List.foldl_map]
    exact foldl_congr_mem (jpaths t)
      (fun acc p => acc.bind (fun m => insertPath m (splitKeySegs (pathKey [] p.1)) p.2))
      (fun acc p => acc.bind (fun m => insertPath m p.1 p.2))
      (some [])
      (fun acc p hp => by
        show acc.bind (fun m => insertPath m (splitKeySegs (pathKey [] p.1)) p.2) =
          acc.bind (fun m => insertPath m p.1 p.2)
        rw [hdec p hp])
  rw [h1]
  cases t with
  | obj es =>
    rw [wfJSON, Bool.and_eq_true, Bool.and_eq_true] at hwf
    rw [show jpaths (JSON.obj es) = jpathsEntries es from rfl,
      insertAll_entries es [] hwf.2 hwf.1.2 (fun key _ h => by simp [jsKeys] at h)]
    rfl
  | arr es =>
    rw [wfJSON, Bool.and_eq_true] at hwf
    rw [show jpaths (JSON.arr es) = jpathsElems 0 es from rfl,
      insertAll_elems es 0 [] hwf.2 (fun j _ h => by simp [jsKeys] at h)]
    rfl
  | str ss => simp [JSON.isContainer] at hc
  | num n => simp [JSON.isContainer] at hc
  | bool b => simp [JSON.isContainer] at hc
  | null => simp [JSON.isContainer] at hc

/-- C1 counterexample: the round trip of `{a: 1}` yields `{a: 1}` back —
the numeric leaf stays a number, whereas the claim's spec-modelled image
(`specStringify`, which stringifies every leaf) would be `{a: "1"}`. -/
theorem flattenJSON_roundtrip_cex :
    unflattenJSON (flattenJSON (JSON.obj [(chars "a", JSON.num 1)])) ≠
      some (specStringify (JSON.obj [(chars "a", JSON.num 1)])) ∧
    unflattenJSON (flattenJSON (JSON.obj [(chars "a", JSON.num 1)])) =
      some (JSON.obj [(chars "a", JSON.num 1)]) := by
  constructor
  · decide
  · decide

/-- Witness for the amended C1 theorem at a tree with a nested object, a
dotted key and an array. -/
theorem flattenJSON_roundtrip_witness :
    wfJSON (JSON.obj [(chars "foo", JSON.str (chars "bar")),
      (chars "baz", JSON.obj [(chars "bu.zz", JSON.str (chars "off"))]),
      (chars "arr", JSON.arr [JSON.str (chars "zero"), JSON.str (chars "one"),
        JSON.str (chars "two")])]) = true ∧
    unflattenJSON (flattenJSON (JSON.obj [(chars "foo", JSON.str (chars "bar")),
      (chars "baz", JSON.obj [(chars "bu.zz", JSON.str (chars "off"))]),
      (chars "arr", JSON.arr [JSON.str (chars "zero"), JSON.str (chars "one"),
        JSON.str (chars "two")])])) =
      some (arraysToObjects (JSON.obj [(chars "foo", JSON.str (chars "bar")),
        (chars "baz", JSON.obj [(chars "bu.zz", JSON.str (chars "off"))]),
        (chars "arr", JSON.arr [JSON.str (chars "zero"), JSON.str (chars "one"),
          JSON.str (chars "two")])])) :=
  ⟨by decide, flattenJSON_roundtrip _ (by decide) (by decide)⟩

/-- C7 as amended: for a key containing a literal `'.'` but no `'~'`, the
flatten/unflatten round trip preserves the exact key text — the dot is
escaped to `~|~` and restored.  Keys that already contain `'~'` are not
protected (see the counterexample). -/
theorem dotted_key_flatten_unflatten (k v : Key) (hdot : '.' ∈ k)
    (ht : ∀ c ∈ k, c ≠ '~') :
    unflattenJSON (flattenJSON (JSON.obj [(k, JSON.str v)])) =
      some (JSON.obj [(k, JSON.str v)]) := by
  have h1 : flattenJSON (JSON.obj [(k, JSON.str v)]) = [(escapeKey k, JSON.str v)] := rfl
  rw [h1]
  unfold unflattenJSON
  have h2 : splitKeySegs (escapeKey k) = [k] := by
    unfold splitKeySegs
    rw [splitDot_no_dot _ (escapeKey_no_dot k)]
    show [unescapeKey (escapeKey k)] = [k]
    rw [unescapeKey_escapeKey k ht]
  show ((some ([] : List (Key × JSON))).bind
      (fun m => insertPath m (splitKeySegs (escapeKey k)) (JSON.str v))).map JSON.obj =
    some (JSON.obj [(k, JSON.str v)])
  rw [h2]
  rfl

/-- C7 counterexample: a key whose text already contains the sentinel
`~|~` next to a real dot is not round-tripped — `"a~|~b.c"` comes back as
`"a.b.c"`, so the escaping is not injective on arbitrary key text. -/
theorem dotted_key_flatten_unflatten_cex :
    unflattenJSON (flattenJSON (JSON.obj
        [(chars "a~|~b.c", JSON.str (chars "v"))])) =
      some (JSON.obj [(chars "a.b.c", JSON.str (chars "v"))]) ∧
    chars "a~|~b.c" ≠ chars "a.b.c" := by
  constructor
  · decide
  · decide

/-- Witness for the amended C7 theorem at the key `"bu.zz"`. -/
theorem dotted_key_flatten_unflatten_witness :
    '.' ∈ chars "bu.zz" ∧
    unflattenJSON (flattenJSON (JSON.obj [(chars "bu.zz", JSON.str (chars "off"))])) =
      some (JSON.obj [(chars "bu.zz", JSON.str (chars "off"))]) :=
  ⟨by decide, dotted_key_flatten_unflatten (chars "bu.zz") (chars "off")
    (by decide) (by decide)⟩

end JT
